import Mathlib

/-!
Verification of the cognitive-agent repository (iteration-bounded cognitive
execution engine, fact store, FAISS-backed vector index, result
materialization, finalization heuristics, ingest endpoint).

Each section embeds the relevant Python source (shallow embedding: pure
functions over explicit state; Python floats are modelled as rationals,
Python dicts/lists as inductive trees, fallible code as Except/Option) and
proves or refutes the frozen specification claims about it.
-/

set_option maxRecDepth 4000

/-! ## Kernel-computable rational arithmetic

Python floats are modelled as rationals. Mathlib's field operations on `ℚ`
do not evaluate inside the kernel, so the embedding uses these
`Rat.divInt`-based operations, each proved equal to the corresponding
field operation. -/

/-- Computable model of float addition. -/
def qAdd (a b : ℚ) : ℚ :=
  Rat.divInt (a.num * (b.den : ℤ) + b.num * (a.den : ℤ)) ((a.den : ℤ) * (b.den : ℤ))

/-- Computable model of float subtraction. -/
def qSub (a b : ℚ) : ℚ :=
  Rat.divInt (a.num * (b.den : ℤ) - b.num * (a.den : ℤ)) ((a.den : ℤ) * (b.den : ℤ))

/-- Computable model of float multiplication. -/
def qMul (a b : ℚ) : ℚ := Rat.divInt (a.num * b.num) ((a.den : ℤ) * (b.den : ℤ))

/-- Computable model of float division. -/
def qDiv (a b : ℚ) : ℚ := Rat.divInt (a.num * (b.den : ℤ)) ((a.den : ℤ) * b.num)

theorem qAdd_eq (a b : ℚ) : qAdd a b = a + b := by
  rw [qAdd]
  conv_rhs => rw [← Rat.num_divInt_den a, ← Rat.num_divInt_den b]
  rw [Rat.divInt_add_divInt _ _ (by exact_mod_cast a.den_nz) (by exact_mod_cast b.den_nz)]

theorem qSub_eq (a b : ℚ) : qSub a b = a - b := by
  rw [qSub]
  conv_rhs => rw [← Rat.num_divInt_den a, ← Rat.num_divInt_den b]
  rw [Rat.divInt_sub_divInt _ _ (by exact_mod_cast a.den_nz) (by exact_mod_cast b.den_nz)]

theorem qMul_eq (a b : ℚ) : qMul a b = a * b := by
  rw [qMul]
  conv_rhs => rw [← Rat.num_divInt_den a, ← Rat.num_divInt_den b]
  rw [Rat.divInt_mul_divInt _ _ (by exact_mod_cast a.den_nz) (by exact_mod_cast b.den_nz)]

theorem qDiv_eq (a b : ℚ) : qDiv a b = a / b := (Rat.div_def' a b).symm

/-! ## Shared string model

Models of the Python string operations used by the agent:
`str.lower`, `str.split()` (whitespace tokenisation), substring containment
(`in`), `str.strip`, and the two regular expressions appearing in
`ai_agent.py` (`RESULT_FROM_STEP_(\d+)` and the first-number scan
`-?\d+\.?\d*`).
-/

namespace PyStr

/-- Model of Python `str.lower()` (ASCII-adequate, via `Char.toLower`),
over character lists so that it evaluates inside the kernel. -/
def lowerChars (cs : List Char) : List Char := cs.map Char.toLower

/-- Model of Python `str.lower()`. -/
def lower (s : String) : String := String.mk (lowerChars s.toList)

/-- Tokenizer behind `splitWs`: accumulate the current word (reversed) and
emit it at whitespace boundaries. -/
def splitWsAux : List Char → List Char → List (List Char)
  | [], acc => if acc.isEmpty then [] else [acc.reverse]
  | c :: rest, acc =>
    if c.isWhitespace then
      if acc.isEmpty then splitWsAux rest [] else acc.reverse :: splitWsAux rest []
    else splitWsAux rest (c :: acc)

/-- Model of Python `str.split()` with no argument: split on whitespace
runs, discarding empty tokens. -/
def splitWs (s : String) : List String :=
  (splitWsAux s.toList []).map String.mk

/-- Whether `pat` occurs as a contiguous substring of `s`
(model of Python `pat in s`), via lists of characters. -/
def containsSub (s pat : String) : Bool :=
  decide (pat.toList <:+: s.toList)

/-- One step of the leftmost search for a decimal digit run:
take the maximal run of digits at the head of `cs` and return it with
the rest. -/
def takeDigits (cs : List Char) : List Char × List Char :=
  match cs with
  | [] => ([], [])
  | c :: rest =>
    if c.isDigit then
      let (ds, rest') := takeDigits rest
      (c :: ds, rest')
    else ([], cs)

/-- Numeric value of a digit run (the regex group `(\d+)` converted by
Python `int`). -/
def digitsToNat (ds : List Char) : Nat :=
  ds.foldl (fun acc c => acc * 10 + (c.toNat - '0'.toNat)) 0

/-- The placeholder literal used by `_replace_placeholder` in
`ai_agent.py`. -/
def stepTokenChars : List Char := "RESULT_FROM_STEP_".toList

/-- Leftmost match of the regex `RESULT_FROM_STEP_(\d+)` over a character
list: at each position try to match the literal followed by at least one
digit; on success return the numeric group (model of
`re.search(r'RESULT_FROM_STEP_(\d+)', value)` + `int(match.group(1))`). -/
def findStepToken : List Char → Option Nat
  | [] => none
  | c :: rest =>
    if stepTokenChars.isPrefixOf (c :: rest) then
      let after := (c :: rest).drop stepTokenChars.length
      let (ds, _) := takeDigits after
      if ds.isEmpty then findStepToken rest else some (digitsToNat ds)
    else findStepToken rest

/-- String-level wrapper for `findStepToken`. -/
def findStepTokenStr (s : String) : Option Nat := findStepToken s.toList

end PyStr

/-! ## Section C2: fact store retrieval (`src/agent/memory.py`,
`MemoryLayer.retrieve_relevant_facts`) -/

namespace FactStore

/-- Embedding of the `MemoryFact` pydantic model (fields used by
retrieval; the timestamp plays no role in retrieval). -/
structure MemoryFact where
  content : String
  source : String
  relevance_score : ℚ
deriving DecidableEq

/-- Embedding of the `MemoryQuery` pydantic model. -/
structure MemoryQuery where
  query : String
  max_results : Nat
  min_relevance : ℚ
deriving DecidableEq

/-- `set(text.lower().split())` as a finite set of word tokens. -/
def wordSet (s : String) : Finset String := (PyStr.splitWs (PyStr.lower s)).toFinset

/-- The filter applied per fact by `retrieve_relevant_facts`:
`overlap = len(query_words & fact_words)`; keep when `overlap > 0` and
`overlap / len(query_words) >= min_relevance`. -/
def keeps (q : MemoryQuery) (f : MemoryFact) : Bool :=
  let qw := wordSet q.query
  let fw := wordSet f.content
  let overlap := (qw ∩ fw).card
  if 0 < overlap then
    decide (Rat.divInt (overlap : ℤ) (qw.card : ℤ) ≥ q.min_relevance)
  else false

/-- The descending comparison used by
`relevant_facts.sort(key=lambda f: f.relevance_score, reverse=True)`. -/
def byScoreDesc (a b : MemoryFact) : Prop := b.relevance_score ≤ a.relevance_score

instance : DecidableRel byScoreDesc := fun a b => inferInstanceAs (Decidable (_ ≤ _))

instance : IsTotal MemoryFact byScoreDesc := ⟨fun a b => le_total b.relevance_score a.relevance_score⟩

instance : IsTrans MemoryFact byScoreDesc := ⟨fun _ _ _ h₁ h₂ => le_trans h₂ h₁⟩

/-- Embedding of `MemoryLayer.retrieve_relevant_facts`: filter the stored
facts in order, stably sort the survivors by their static stored
`relevance_score` descending (Python `list.sort` is stable; insertion sort
models it), truncate to `max_results`. -/
def retrieveRelevantFacts (facts : List MemoryFact) (q : MemoryQuery) : List MemoryFact :=
  (List.insertionSort byScoreDesc (facts.filter (keeps q))).take q.max_results

/-- The overlap-ratio condition exactly as the claim words it ("keeps
exactly the facts whose overlap ratio ... is >= min_relevance"), with no
requirement that the overlap be positive. -/
def claimKeeps (q : MemoryQuery) (f : MemoryFact) : Bool :=
  let qw := wordSet q.query
  let fw := wordSet f.content
  decide (Rat.divInt (((qw ∩ fw).card : ℤ)) ((qw.card : ℤ)) ≥ q.min_relevance)

/-- Claim C2 (amended): retrieval keeps exactly the facts that share at
least one word with the query and whose overlap ratio meets
`min_relevance` (for every strictly positive `min_relevance` this filter
coincides with the ratio-only filter the claim describes), sorts the
survivors by their static stored `relevance_score` in descending order
(not by the freshly computed overlap ratio), and truncates to
`max_results`. -/
theorem retrieve_relevant_facts_spec (facts : List MemoryFact) (q : MemoryQuery) :
    (retrieveRelevantFacts facts q).length ≤ q.max_results ∧
    List.Sorted byScoreDesc (retrieveRelevantFacts facts q) ∧
    (∀ f ∈ retrieveRelevantFacts facts q, f ∈ facts ∧ keeps q f = true) ∧
    ((facts.filter (keeps q)).length ≤ q.max_results →
      ∀ f ∈ facts, keeps q f = true → f ∈ retrieveRelevantFacts facts q) ∧
    (∀ f, 0 < q.min_relevance → keeps q f = claimKeeps q f) := by
  refine ⟨?_, ?_, ?_, ?_, ?_⟩
  · exact List.length_take_le _ _
  · exact (List.sorted_insertionSort byScoreDesc _).sublist (List.take_sublist _ _)
  · intro f hf
    have hf₁ : f ∈ List.insertionSort byScoreDesc (facts.filter (keeps q)) :=
      List.mem_of_mem_take hf
    have hf₂ : f ∈ facts.filter (keeps q) :=
      (List.perm_insertionSort byScoreDesc _).mem_iff.mp hf₁
    exact ⟨List.mem_of_mem_filter hf₂, List.of_mem_filter hf₂⟩
  · intro hlen f hf hk
    have hmem : f ∈ facts.filter (keeps q) := List.mem_filter.mpr ⟨hf, hk⟩
    have hmem₂ : f ∈ List.insertionSort byScoreDesc (facts.filter (keeps q)) :=
      (List.perm_insertionSort byScoreDesc _).mem_iff.mpr hmem
    have hlen₂ : (List.insertionSort byScoreDesc (facts.filter (keeps q))).length ≤
        q.max_results :=
      le_trans (le_of_eq ((List.perm_insertionSort byScoreDesc _).length_eq)) hlen
    rw [retrieveRelevantFacts, List.take_of_length_le hlen₂]
    exact hmem₂
  · intro f hpos
    rw [keeps, claimKeeps]
    by_cases hov : 0 < ((wordSet q.query) ∩ (wordSet f.content)).card
    · simp only [hov, if_true]
    · have hz : ((wordSet q.query) ∩ (wordSet f.content)).card = 0 := by omega
      simp only [hov, if_false, hz]
      rw [show ((0 : Nat) : ℤ) = 0 from rfl, Rat.zero_divInt]
      have hnle : ¬ ((0 : ℚ) ≥ q.min_relevance) := not_le.mpr hpos
      simp [hnle]

/-- Claim C2 as stated is false on the code: with `min_relevance = 0` a
fact sharing no word with the query has overlap ratio `0 ≥ 0`, so the
claim would keep it, but `retrieve_relevant_facts` requires a strictly
positive overlap and drops it. -/
theorem retrieve_relevant_facts_ratio_only_is_wrong :
    claimKeeps ⟨"alpha", 5, 0⟩ ⟨"zebra", "user", 9⟩ = true ∧
    retrieveRelevantFacts [⟨"zebra", "user", 9⟩] ⟨"alpha", 5, 0⟩ = [] := by
  exact ⟨by decide, by decide⟩

end FactStore

/-! ## Section C3/C7: FAISS-backed YouTube vector store
(`src/agent/memory.py`, `add_youtube_chunks` / `search_youtube_content`) -/

namespace VecStore

/-- Embedding of the `YouTubeTranscriptChunk` pydantic model (timestamps
are floats, modelled as rationals). -/
structure YouTubeTranscriptChunk where
  video_id : String
  chunk_text : String
  start_timestamp : ℚ
  end_timestamp : ℚ
  chunk_index : Int
deriving DecidableEq

/-- One metadata dict as appended by `add_youtube_chunks`. -/
structure ChunkMeta where
  video_id : String
  chunk_text : String
  start_timestamp : ℚ
  end_timestamp : ℚ
  chunk_index : Int
deriving DecidableEq

/-- The metadata dict built from a chunk in `add_youtube_chunks`. -/
def chunkMeta (c : YouTubeTranscriptChunk) : ChunkMeta :=
  ⟨c.video_id, c.chunk_text, c.start_timestamp, c.end_timestamp, c.chunk_index⟩

/-- A 2-D numpy float array: `rows` is the data (so `shape[0]` is
`rows.length`) and `ncols` is `shape[1]`; for an array produced by
`np.stack` every row has length `ncols`. -/
structure NpMatrix where
  rows : List (List ℚ)
  ncols : Nat
deriving DecidableEq

/-- State of the store: the flat L2 FAISS index is the list of its
embeddings in insertion order (a `None` index behaves as the empty list),
`metadata` is the parallel `youtube_metadata` list, and `dimension` is the
fixed `youtube_dimension`. -/
structure YTStore where
  index : List (List ℚ)
  metadata : List ChunkMeta
  dimension : Nat
deriving DecidableEq

/-- The store as `MemoryLayer.__init__` creates it (`youtube_dimension =
768`, no index, empty metadata). -/
def emptyStore : YTStore := ⟨[], [], 768⟩

/-- Embedding of `MemoryLayer.add_youtube_chunks`: raise (before touching
any state) when the embedding count differs from the chunk count or the
embedding dimension differs from `youtube_dimension`; otherwise append the
embeddings to the index and one metadata dict per chunk, returning the
number of chunks added. -/
def addYoutubeChunks (st : YTStore) (chunks : List YouTubeTranscriptChunk)
    (emb : NpMatrix) : Except String (YTStore × Nat) :=
  if emb.rows.length ≠ chunks.length then
    Except.error "Number of embeddings must match number of chunks"
  else if emb.ncols ≠ st.dimension then
    Except.error "Embedding dimension mismatch"
  else
    Except.ok
      ({ st with
          index := st.index ++ emb.rows
          metadata := st.metadata ++ chunks.map chunkMeta },
        chunks.length)

/-- State transition for one `add` call: a raised `ValueError` leaves the
store as it was. -/
def addStep (st : YTStore) (op : List YouTubeTranscriptChunk × NpMatrix) : YTStore :=
  match addYoutubeChunks st op.1 op.2 with
  | Except.ok (st', _) => st'
  | Except.error _ => st

/-- Any finite sequence of `add` calls. -/
def runAdds (st : YTStore) (ops : List (List YouTubeTranscriptChunk × NpMatrix)) : YTStore :=
  ops.foldl addStep st

/-- Squared Euclidean distance between two embeddings, as computed by the
`IndexFlatL2` search. -/
def sqDist (q v : List ℚ) : ℚ :=
  ((List.zipWith qSub q v).map (fun x => qMul x x)).foldr qAdd 0

/-- `YouTubeContext` output model of the search. -/
structure YTContext where
  video_id : String
  chunk_text : String
  timestamp : ℚ
  relevance_score : ℚ
deriving DecidableEq

/-- Comparison used to model the FAISS result ordering: ascending
distance; ties keep insertion (index) order, which the stable insertion
sort provides. -/
def distLe (a b : ℚ × Nat) : Prop := a.1 ≤ b.1

instance : DecidableRel distLe := fun a b => inferInstanceAs (Decidable (_ ≤ _))

instance : IsTotal (ℚ × Nat) distLe := ⟨fun a b => le_total a.1 b.1⟩

instance : IsTrans (ℚ × Nat) distLe := ⟨fun _ _ _ h₁ h₂ => le_trans h₁ h₂⟩

/-- The retrieval loop of `search_youtube_content`: skip out-of-range
indices, apply the optional `video_id` filter post-hoc, convert distance
`d` to similarity `1/(1+d)`, and stop as soon as `top_k` contexts were
collected. `cnt` is the number of contexts already collected. -/
def collectContexts (st : YTStore) (vfilter : Option String) (top_k : Nat) :
    List (ℚ × Nat) → Nat → List YTContext
  | [], _ => []
  | (dist, idx) :: rest, cnt =>
    match st.metadata.get? idx with
    | none => collectContexts st vfilter top_k rest cnt
    | some md =>
      if (match vfilter with
          | some v => decide (md.video_id ≠ v)
          | none => false : Bool) then
        collectContexts st vfilter top_k rest cnt
      else
        let ctx : YTContext :=
          ⟨md.video_id, md.chunk_text, md.start_timestamp, qDiv 1 (qAdd 1 dist)⟩
        if top_k ≤ cnt + 1 then [ctx]
        else ctx :: collectContexts st vfilter top_k rest (cnt + 1)

/-- Embedding of `MemoryLayer.search_youtube_content`: empty result on an
empty index; otherwise rank all stored embeddings by squared L2 distance
to the query (over-fetching `3*top_k` candidates when filtering by video),
then run the collection loop. -/
def searchYoutubeContent (st : YTStore) (qe : List ℚ) (top_k : Nat)
    (vfilter : Option String) : List YTContext :=
  if st.index.length = 0 then []
  else
    let search_k := match vfilter with
      | some _ => top_k * 3
      | none => top_k
    let k := min search_k st.index.length
    let scored := st.index.enum.map (fun p => (sqDist qe p.2, p.1))
    let ranked := (List.insertionSort distLe scored).take k
    collectContexts st vfilter top_k ranked 0

end VecStore

namespace VecStore

/-- Preservation of the parallel-arrays invariant by one `add` call. -/
theorem addStep_preserves_inv (st : YTStore)
    (h : st.index.length = st.metadata.length)
    (op : List YouTubeTranscriptChunk × NpMatrix) :
    (addStep st op).index.length = (addStep st op).metadata.length := by
  unfold addStep addYoutubeChunks
  split_ifs with h1 h2
  · exact h
  · exact h
  · simp only [List.length_append, List.length_map]
    omega

/-- Claim C3: after any sequence of `add_youtube_chunks` calls the number
of embeddings in the index equals the length of the metadata list, and a
shape-mismatched call (embedding count differing from the chunk count, or
embedding dimension differing from the fixed dimension) raises an error
and leaves both the index and the metadata list unchanged. -/
theorem add_youtube_chunks_parallel_invariant (st : YTStore)
    (h : st.index.length = st.metadata.length)
    (ops : List (List YouTubeTranscriptChunk × NpMatrix)) :
    (runAdds st ops).index.length = (runAdds st ops).metadata.length ∧
    (∀ chunks emb, (emb.rows.length ≠ chunks.length ∨ emb.ncols ≠ st.dimension) →
      (∃ msg, addYoutubeChunks st chunks emb = Except.error msg) ∧
      addStep st (chunks, emb) = st) := by
  constructor
  · induction ops generalizing st with
    | nil => exact h
    | cons op rest ih =>
      exact ih (addStep st op) (addStep_preserves_inv st h op)
  · intro chunks emb hor
    by_cases h1 : emb.rows.length ≠ chunks.length
    · refine ⟨⟨"Number of embeddings must match number of chunks", ?_⟩, ?_⟩
      · rw [addYoutubeChunks, if_pos h1]
      · rw [addStep]
        simp only [addYoutubeChunks, if_pos h1]
    · have h2 : emb.ncols ≠ st.dimension := by tauto
      refine ⟨⟨"Embedding dimension mismatch", ?_⟩, ?_⟩
      · rw [addYoutubeChunks, if_neg h1, if_pos h2]
      · rw [addStep]
        simp only [addYoutubeChunks, if_neg h1, if_pos h2]

/-- A 768-dimensional zero embedding. -/
def e768 : List ℚ := List.replicate 768 0

/-- Concrete chunk used in witnesses and counterexamples. -/
def dupA : YouTubeTranscriptChunk := ⟨"vid", "first chunk", 0, 1, 0⟩

/-- A second chunk sharing the same embedding text span. -/
def dupB : YouTubeTranscriptChunk := ⟨"vid", "second chunk", 30, 31, 1⟩

/-- Two chunks, both embedded as the zero vector. -/
def dupMat : NpMatrix := ⟨[e768, e768], 768⟩

/-- A matrix with one row too few for two chunks. -/
def shortMat : NpMatrix := ⟨[e768], 768⟩

/-- Witness for C3 at concrete inputs: a successful add of two chunks
followed by a shape-mismatched add from the fresh store. -/
theorem add_youtube_chunks_parallel_invariant_witness :
    (runAdds emptyStore [([dupA, dupB], dupMat), ([dupA, dupB], shortMat)]).index.length =
      (runAdds emptyStore [([dupA, dupB], dupMat), ([dupA, dupB], shortMat)]).metadata.length :=
  (add_youtube_chunks_parallel_invariant emptyStore rfl
    [([dupA, dupB], dupMat), ([dupA, dupB], shortMat)]).1

end VecStore

namespace VecStore

theorem sqDist_nil_right (q : List ℚ) : sqDist q [] = 0 := by
  cases q <;> rfl

theorem sqDist_cons (a b : ℚ) (as bs : List ℚ) :
    sqDist (a :: as) (b :: bs) = qAdd (qMul (qSub a b) (qSub a b)) (sqDist as bs) := rfl

theorem sqDist_nonneg (q v : List ℚ) : 0 ≤ sqDist q v := by
  induction q generalizing v with
  | nil => simp [sqDist]
  | cons a as ih =>
    cases v with
    | nil => rw [sqDist_nil_right]
    | cons b bs =>
      rw [sqDist_cons, qAdd_eq, qMul_eq, qSub_eq]
      have h1 : (0:ℚ) ≤ (a - b) * (a - b) := mul_self_nonneg _
      have h2 := ih bs
      linarith

theorem sqDist_self (v : List ℚ) : sqDist v v = 0 := by
  induction v with
  | nil => rfl
  | cons a as ih =>
    rw [sqDist_cons, qAdd_eq, qMul_eq, qSub_eq, ih, sub_self, mul_zero, add_zero]

theorem sqDist_eq_zero (q v : List ℚ) (hlen : q.length = v.length)
    (h : sqDist q v = 0) : v = q := by
  induction q generalizing v with
  | nil =>
    cases v with
    | nil => rfl
    | cons b bs => simp at hlen
  | cons a as ih =>
    cases v with
    | nil => simp at hlen
    | cons b bs =>
      rw [sqDist_cons, qAdd_eq, qMul_eq, qSub_eq] at h
      have h1 : (0:ℚ) ≤ (a - b) * (a - b) := mul_self_nonneg _
      have h2 := sqDist_nonneg as bs
      have hsq : (a - b) * (a - b) = 0 := by linarith
      have hrest : sqDist as bs = 0 := by linarith
      have hab : a = b := by
        have := mul_self_eq_zero.mp hsq
        linarith
      have hlen' : as.length = bs.length := by simpa using hlen
      rw [ih bs hlen' hrest, hab]

end VecStore

namespace VecStore

/-- The similarity assigned to an exact match: `1/(1+0) = 1`. -/
theorem similarity_of_zero_distance : qDiv 1 (qAdd 1 0) = 1 := by
  rw [qAdd_eq, qDiv_eq, add_zero, div_one]

/-- Claim C7 (amended): when the stored embedding is unique in the index,
searching with it (no video filter, `top_k ≥ 1`) returns that record
first, with similarity score exactly 1 (distance 0). -/
theorem search_exact_embedding_first
    (st : YTStore) (qe : List ℚ) (top_k i : Nat) (md : ChunkMeta)
    (hdims : ∀ v ∈ st.index, v.length = qe.length)
    (hi : st.index[i]? = some qe)
    (huniq : ∀ j v, st.index[j]? = some v → v = qe → j = i)
    (hmd : st.metadata.get? i = some md)
    (htop : 1 ≤ top_k) :
    (searchYoutubeContent st qe top_k none).head? =
      some ⟨md.video_id, md.chunk_text, md.start_timestamp, 1⟩ := by
  have hilen : i < st.index.length := by
    rcases List.getElem?_eq_some.mp hi with ⟨h, _⟩
    exact h
  have hne : ¬ st.index.length = 0 := by omega
  have hmemi : ((0:ℚ), i) ∈ st.index.enum.map (fun p => (sqDist qe p.2, p.1)) := by
    refine List.mem_map.mpr ⟨(i, qe), ?_, ?_⟩
    · exact List.mk_mem_enum_iff_getElem?.mpr hi
    · simp [sqDist_self]
  have hall : ∀ p ∈ st.index.enum.map (fun p => (sqDist qe p.2, p.1)),
      0 ≤ p.1 ∧ (p.1 = 0 → p.2 = i) := by
    intro p hp
    obtain ⟨⟨j, v⟩, hjv, rfl⟩ := List.mem_map.mp hp
    have hjv' : st.index[j]? = some v := List.mk_mem_enum_iff_getElem?.mp hjv
    refine ⟨sqDist_nonneg qe v, ?_⟩
    intro h0
    apply huniq j v hjv'
    have hvmem : v ∈ st.index := List.getElem?_mem hjv'
    exact sqDist_eq_zero qe v (hdims v hvmem).symm h0
  have hperm := List.perm_insertionSort distLe (st.index.enum.map (fun p => (sqDist qe p.2, p.1)))
  have hsort := List.sorted_insertionSort distLe (st.index.enum.map (fun p => (sqDist qe p.2, p.1)))
  have hmem_sorted : ((0:ℚ), i) ∈
      List.insertionSort distLe (st.index.enum.map (fun p => (sqDist qe p.2, p.1))) :=
    hperm.mem_iff.mpr hmemi
  obtain ⟨hd, tl, hcons⟩ : ∃ hd tl,
      List.insertionSort distLe (st.index.enum.map (fun p => (sqDist qe p.2, p.1))) = hd :: tl := by
    cases hsorted : List.insertionSort distLe (st.index.enum.map (fun p => (sqDist qe p.2, p.1))) with
    | nil =>
      rw [hsorted] at hmem_sorted
      simp at hmem_sorted
    | cons a b => exact ⟨a, b, rfl⟩
  have hhd_le : distLe hd ((0:ℚ), i) := by
    rw [hcons] at hmem_sorted
    rcases List.mem_cons.mp hmem_sorted with heq | hmemtl
    · rw [← heq]
      exact le_refl _
    · rw [hcons] at hsort
      exact (List.sorted_cons.mp hsort).1 _ hmemtl
  have hhd_mem : hd ∈ st.index.enum.map (fun p => (sqDist qe p.2, p.1)) := by
    apply hperm.mem_iff.mp
    rw [hcons]
    exact List.mem_cons_self _ _
  have hhd_prop := hall hd hhd_mem
  have hhd1 : hd.1 = 0 := le_antisymm hhd_le hhd_prop.1
  have hhd2 : hd.2 = i := hhd_prop.2 hhd1
  have hhd : hd = ((0:ℚ), i) := Prod.ext_iff.mpr ⟨hhd1, hhd2⟩
  obtain ⟨k', hk'⟩ : ∃ k', min top_k st.index.length = k' + 1 :=
    ⟨min top_k st.index.length - 1, by omega⟩
  simp only [searchYoutubeContent, if_neg hne]
  rw [hcons, hhd, hk', List.take_succ_cons]
  simp only [collectContexts, hmd]
  rw [similarity_of_zero_distance]
  by_cases hb : top_k ≤ 0 + 1
  · simp [if_pos hb]
  · simp [if_neg hb]

end VecStore

namespace VecStore

/-- Witness for the amended C7 at a concrete single-record store. -/
theorem search_exact_embedding_first_witness :
    (searchYoutubeContent ⟨[e768], [chunkMeta dupA], 768⟩ e768 3 none).head? =
      some ⟨"vid", "first chunk", 0, 1⟩ :=
  search_exact_embedding_first ⟨[e768], [chunkMeta dupA], 768⟩ e768 3 0 (chunkMeta dupA)
    (by
      intro v hv
      rw [List.mem_singleton.mp hv])
    rfl
    (by
      intro j v hj _
      rcases List.getElem?_eq_some.mp hj with ⟨hlt, _⟩
      simp only [List.length_singleton] at hlt
      omega)
    rfl
    (by omega)

/-- The store obtained by adding `dupA` and `dupB`, both with the zero
embedding. -/
def dupStore : YTStore := ⟨[e768, e768], [chunkMeta dupA, chunkMeta dupB], 768⟩

/-- Claim C7 as stated is false on the code: after adding two records that
share one embedding, searching with that exact embedding returns the
first record's context first, so for the second added record
("for any record added ...") the search does not return that record
first, even though its stored embedding is the query. -/
theorem search_roundtrip_counterexample :
    addYoutubeChunks emptyStore [dupA, dupB] dupMat = Except.ok (dupStore, 2) ∧
    (searchYoutubeContent dupStore e768 3 none).head? =
      some ⟨"vid", "first chunk", 0, 1⟩ ∧
    dupB.chunk_text ≠ "first chunk" := by
  refine ⟨rfl, ?_, by decide⟩
  have hmap : dupStore.index.enum.map (fun p => (sqDist e768 p.2, p.1)) =
      [((0 : ℚ), 0), ((0 : ℚ), 1)] := by
    show [((sqDist e768 e768 : ℚ), 0), ((sqDist e768 e768 : ℚ), 1)] = _
    rw [sqDist_self]
  simp only [searchYoutubeContent]
  rw [if_neg (by decide : ¬ dupStore.index.length = 0), hmap]
  rw [show dupStore.index.length = 2 from rfl]
  decide

end VecStore

/-! ## Shared Python value model and JSON parser

`ai_agent.py` and `decision.py` manipulate JSON-like Python values
(`json.loads` results, nested parameter dicts). `PyVal` is the tagged
tree; `jsonParse` models `json.loads` (returning `none` where Python
raises `json.JSONDecodeError`). -/

namespace Py

mutual
/-- A Python value as passed around by the agent: scalar, dict or list. -/
inductive PyVal where
  | str : String → PyVal
  | intv : Int → PyVal
  | float : ℚ → PyVal
  | boolv : Bool → PyVal
  | nonev : PyVal
  | dict : PyFields → PyVal
  | list : PyItems → PyVal

/-- Ordered key/value fields of a Python dict. -/
inductive PyFields where
  | nil : PyFields
  | cons : String → PyVal → PyFields → PyFields

/-- Ordered items of a Python list. -/
inductive PyItems where
  | nil : PyItems
  | cons : PyVal → PyItems → PyItems
end

mutual
def PyVal.beq : PyVal → PyVal → Bool
  | .str a, .str b => a = b
  | .intv a, .intv b => a = b
  | .float a, .float b => a = b
  | .boolv a, .boolv b => a = b
  | .nonev, .nonev => true
  | .dict a, .dict b => PyFields.beq a b
  | .list a, .list b => PyItems.beq a b
  | _, _ => false

def PyFields.beq : PyFields → PyFields → Bool
  | .nil, .nil => true
  | .cons k v r, .cons k' v' r' => k = k' && PyVal.beq v v' && PyFields.beq r r'
  | _, _ => false

def PyItems.beq : PyItems → PyItems → Bool
  | .nil, .nil => true
  | .cons v r, .cons v' r' => PyVal.beq v v' && PyItems.beq r r'
  | _, _ => false
end

/-- Values of a dict, in insertion order (Python `dict.values()`). -/
def PyFields.valuesList : PyFields → List PyVal
  | .nil => []
  | .cons _ v r => v :: r.valuesList

/-- Lookup in a dict (Python `d[k]` / `k in d`). -/
def PyFields.lookup (k : String) : PyFields → Option PyVal
  | .nil => none
  | .cons k' v r => if k = k' then some v else r.lookup k

end Py

namespace Py

/-- JSON whitespace skipping (`json.loads` tolerates ws around tokens). -/
def skipWs : List Char → List Char
  | [] => []
  | c :: rest =>
    if c = ' ' ∨ c = '\t' ∨ c = '\n' ∨ c = '\r' then skipWs rest else c :: rest

/-- Powers of ten as integers (kernel-computable). -/
def pow10 : Nat → Int
  | 0 => 1
  | n + 1 => 10 * pow10 n

/-- Hexadecimal digit value for `\u` escapes. -/
def hexVal (c : Char) : Option Nat :=
  if c.isDigit then some (c.toNat - '0'.toNat)
  else if 'a' ≤ c ∧ c ≤ 'f' then some (c.toNat - 'a'.toNat + 10)
  else if 'A' ≤ c ∧ c ≤ 'F' then some (c.toNat - 'A'.toNat + 10)
  else none

/-- Parse the body of a JSON string after the opening quote; returns the
accumulated characters and the input following the closing quote. -/
def parseStringBody : List Char → List Char → Option (String × List Char)
  | [], _ => none
  | c :: rest, acc =>
    if c = '"' then some (String.mk acc.reverse, rest)
    else if c = '\\' then
      match rest with
      | [] => none
      | e :: rest' =>
        if e = '"' then parseStringBody rest' ('"' :: acc)
        else if e = '\\' then parseStringBody rest' ('\\' :: acc)
        else if e = '/' then parseStringBody rest' ('/' :: acc)
        else if e = 'b' then parseStringBody rest' ('\x08' :: acc)
        else if e = 'f' then parseStringBody rest' ('\x0c' :: acc)
        else if e = 'n' then parseStringBody rest' ('\n' :: acc)
        else if e = 'r' then parseStringBody rest' ('\r' :: acc)
        else if e = 't' then parseStringBody rest' ('\t' :: acc)
        else if e = 'u' then
          match rest' with
          | h1 :: h2 :: h3 :: h4 :: rest'' =>
            match hexVal h1, hexVal h2, hexVal h3, hexVal h4 with
            | some a, some b, some c', some d =>
              let n := ((a * 16 + b) * 16 + c') * 16 + d
              if h : n.isValidChar then
                parseStringBody rest'' (Char.ofNat n :: acc)
              else none
            | _, _, _, _ => none
          | _ => none
        else none
    else parseStringBody rest (c :: acc)

/-- Parse a JSON number (strict grammar: `-?(0|[1-9]\d*)(\.\d+)?
([eE][+-]?\d+)?`); integers yield Python `int`, otherwise `float`. -/
def parseNumber (cs : List Char) : Option (PyVal × List Char) :=
  let (neg, cs₁) := match cs with
    | '-' :: rest => (true, rest)
    | _ => (false, cs)
  let (ids, cs₂) := PyStr.takeDigits cs₁
  if ids.isEmpty then none
  else if ids.length > 1 ∧ ids.headD '0' = '0' then none
  else
    let ipart : Int := Int.ofNat (PyStr.digitsToNat ids)
    let (fds, cs₃) := match cs₂ with
      | '.' :: rest => PyStr.takeDigits rest
      | _ => ([], cs₂)
    let hasFrac := match cs₂ with
      | '.' :: _ => true
      | _ => false
    if hasFrac ∧ fds.isEmpty then none
    else
      let (hasExp, expNeg, eds, cs₄) := match cs₃ with
        | 'e' :: '+' :: rest => (true, false, (PyStr.takeDigits rest).1, (PyStr.takeDigits rest).2)
        | 'e' :: '-' :: rest => (true, true, (PyStr.takeDigits rest).1, (PyStr.takeDigits rest).2)
        | 'e' :: rest => (true, false, (PyStr.takeDigits rest).1, (PyStr.takeDigits rest).2)
        | 'E' :: '+' :: rest => (true, false, (PyStr.takeDigits rest).1, (PyStr.takeDigits rest).2)
        | 'E' :: '-' :: rest => (true, true, (PyStr.takeDigits rest).1, (PyStr.takeDigits rest).2)
        | 'E' :: rest => (true, false, (PyStr.takeDigits rest).1, (PyStr.takeDigits rest).2)
        | _ => (false, false, [], cs₃)
      if hasExp ∧ eds.isEmpty then none
      else
        let sign : Int := if neg then -1 else 1
        if ¬ hasFrac ∧ ¬ hasExp then
          some (PyVal.intv (sign * ipart), cs₂)
        else
          let e : Nat := PyStr.digitsToNat eds
          let fracNum : Int := Int.ofNat (PyStr.digitsToNat fds)
          let mantNum : Int := ipart * pow10 fds.length + fracNum
          let v : ℚ :=
            if expNeg then
              Rat.divInt (sign * mantNum) (pow10 fds.length * pow10 e)
            else
              Rat.divInt (sign * mantNum * pow10 e) (pow10 fds.length)
          some (PyVal.float v, cs₄)

mutual
/-- Parse one JSON value (fuel-bounded recursion). -/
def parseVal : Nat → List Char → Option (PyVal × List Char)
  | 0, _ => none
  | fuel + 1, cs =>
    match skipWs cs with
    | [] => none
    | c :: rest =>
      if c = '{' then
        match skipWs rest with
        | '}' :: rest' => some (PyVal.dict PyFields.nil, rest')
        | cs' => match parseFields fuel cs' with
          | some (fs, rest') => some (PyVal.dict fs, rest')
          | none => none
      else if c = '[' then
        match skipWs rest with
        | ']' :: rest' => some (PyVal.list PyItems.nil, rest')
        | cs' => match parseItems fuel cs' with
          | some (items, rest') => some (PyVal.list items, rest')
          | none => none
      else if c = '"' then
        match parseStringBody rest [] with
        | some (s, rest') => some (PyVal.str s, rest')
        | none => none
      else if c = 't' then
        match rest with
        | 'r' :: 'u' :: 'e' :: rest' => some (PyVal.boolv true, rest')
        | _ => none
      else if c = 'f' then
        match rest with
        | 'a' :: 'l' :: 's' :: 'e' :: rest' => some (PyVal.boolv false, rest')
        | _ => none
      else if c = 'n' then
        match rest with
        | 'u' :: 'l' :: 'l' :: rest' => some (PyVal.nonev, rest')
        | _ => none
      else parseNumber (c :: rest)

/-- Parse the non-empty member list of a JSON object. -/
def parseFields : Nat → List Char → Option (PyFields × List Char)
  | 0, _ => none
  | fuel + 1, cs =>
    match skipWs cs with
    | '"' :: rest =>
      match parseStringBody rest [] with
      | some (k, rest') =>
        match skipWs rest' with
        | ':' :: rest'' =>
          match parseVal fuel rest'' with
          | some (v, rest₃) =>
            match skipWs rest₃ with
            | ',' :: rest₄ =>
              match parseFields fuel rest₄ with
              | some (fs, rest₅) => some (PyFields.cons k v fs, rest₅)
              | none => none
            | '}' :: rest₄ => some (PyFields.cons k v PyFields.nil, rest₄)
            | _ => none
          | none => none
        | _ => none
      | none => none
    | _ => none

/-- Parse the non-empty item list of a JSON array. -/
def parseItems : Nat → List Char → Option (PyItems × List Char)
  | 0, _ => none
  | fuel + 1, cs =>
    match parseVal fuel cs with
    | some (v, rest) =>
      match skipWs rest with
      | ',' :: rest' =>
        match parseItems fuel rest' with
        | some (items, rest'') => some (PyItems.cons v items, rest'')
        | none => none
      | ']' :: rest' => some (PyItems.cons v PyItems.nil, rest')
      | _ => none
    | none => none
end

/-- Model of `json.loads`: parse one value and require only whitespace to
remain; `none` models a raised `json.JSONDecodeError`. -/
def jsonParse (s : String) : Option PyVal :=
  match parseVal (s.length + 1) s.toList with
  | some (v, rest) =>
    match skipWs rest with
    | [] => some v
    | _ => none
  | none => none

end Py

namespace Py

/-- Model of the leftmost match of `re.search(r'-?\d+\.?\d*', s)` followed
by `float(match.group())`: at each position, an optional minus sign, a
nonempty greedy digit run, an optional dot and a greedy (possibly empty)
fraction run. -/
def numValue (neg : Bool) (ds : List Char) (rest : List Char) : ℚ :=
  let fds := (match rest with
    | '.' :: r => PyStr.takeDigits r
    | _ => ([], rest)).1
  let mant : Int :=
    Int.ofNat (PyStr.digitsToNat ds) * pow10 fds.length + Int.ofNat (PyStr.digitsToNat fds)
  Rat.divInt ((if neg then -1 else 1) * mant) (pow10 fds.length)

/-- Leftmost `-?\d+\.?\d*` scan over a character list. -/
def parseFirstNumber : List Char → Option ℚ
  | [] => none
  | c :: rest =>
    if c = '-' then
      let (ds, rest₁) := PyStr.takeDigits rest
      if ds.isEmpty then parseFirstNumber rest
      else some (numValue true ds rest₁)
    else if c.isDigit then
      let (ds, rest₁) := PyStr.takeDigits (c :: rest)
      some (numValue false ds rest₁)
    else parseFirstNumber rest

/-- Decimal digits of a natural number, most significant first
(fuel-bounded so it evaluates in the kernel). -/
def natDigitsAux : Nat → Nat → List Char
  | 0, _ => []
  | fuel + 1, n =>
    if n < 10 then [Char.ofNat ('0'.toNat + n)]
    else natDigitsAux fuel (n / 10) ++ [Char.ofNat ('0'.toNat + n % 10)]

/-- Decimal rendering of a natural number. -/
def natRepr (n : Nat) : List Char := natDigitsAux (n + 1) n

/-- Decimal rendering of an integer. -/
def intRepr : Int → List Char
  | Int.ofNat n => natRepr n
  | Int.negSucc n => '-' :: natRepr (n + 1)

/-- Model of Python `str(v)` for the values the agent renders: strings
render as themselves, booleans as `True`/`False`; float rendering is
modelled exactly for integral floats (`str(5.0) = "5.0"`), which are the
only floats the finalization paths produce from integer tool results. -/
def pyReprVal : PyVal → String
  | .str s => s
  | .intv n => String.mk (intRepr n)
  | .float q =>
    if q.den = 1 then String.mk (intRepr q.num) ++ ".0"
    else String.mk (intRepr q.num) ++ "." ++ String.mk (natRepr q.den)
  | .boolv b => if b then "True" else "False"
  | .nonev => "None"
  | .dict _ => "dict"
  | .list _ => "list"

end Py

/-! ## Section C4: result finalization (`src/agent/ai_agent.py`,
`_finalize_result` and its helpers) -/

namespace Finalize

open Py

/-- The slice of `ActionStep` used by finalization. -/
structure ActionStep where
  step_number : Nat
  action_type : String
deriving DecidableEq

/-- The slice of `ActionResult` used by finalization (`result` is the
tool's text output; `str(ar.result)` is the identity on it). -/
structure ActionResult where
  success : Bool
  result : Option String
deriving DecidableEq

/-- The slice of `DecisionOutput` used by finalization. -/
structure Decision where
  action_plan : List ActionStep
deriving DecidableEq

/-- Model of `_format_value`: booleans render to the strings
`"True"`/`"False"`, ints and floats coerce to float, anything else is
`None`. -/
def formatValue : PyVal → Option PyVal
  | .boolv b => some (.str (if b then "True" else "False"))
  | .intv n => some (.float (n : ℚ))
  | .float q => some (.float q)
  | _ => none

/-- The fixed key priority of `_extract_from_common_keys`. -/
def commonKeys : List String := ["result", "value", "answer", "solution", "salary", "output"]

/-- Model of `_extract_from_common_keys`: return `_format_value` of the
first listed key that is present with a non-`None` value (the early
`return` makes later keys unreachable even when `_format_value` yields
`None`; the enclosing strategy loop treats that `None` as this strategy
failing). -/
def extractFromCommonKeys (fs : PyFields) : Option PyVal :=
  go commonKeys
where
  go : List String → Option PyVal
    | [] => none
    | k :: ks =>
      match fs.lookup k with
      | some PyVal.nonev => go ks
      | some v => formatValue v
      | none => go ks

/-- Last element of a Python list (`value[-1]`). -/
def pyItemsLast : PyItems → Option PyVal
  | .nil => none
  | .cons v .nil => some v
  | .cons _ rest => pyItemsLast rest

/-- Model of `_extract_from_lists`: first dict value that is a non-empty
list whose last element is an int/float (Python `bool` included, being an
`int` subclass), converted by `float(...)`. -/
def extractFromLists (fs : PyFields) : Option PyVal :=
  go fs.valuesList
where
  go : List PyVal → Option PyVal
    | [] => none
    | v :: rest =>
      match v with
      | .list items =>
        match pyItemsLast items with
        | some (.intv n) => some (.float (n : ℚ))
        | some (.float q) => some (.float q)
        | some (.boolv b) => some (.float (if b then 1 else 0))
        | _ => go rest
      | _ => go rest

/-- Model of `_extract_any_numeric`: `_format_value` of the first dict
value it accepts. -/
def extractAnyNumeric (fs : PyFields) : Option PyVal :=
  go fs.valuesList
where
  go : List PyVal → Option PyVal
    | [] => none
    | v :: rest =>
      match formatValue v with
      | some x => some x
      | none => go rest

/-- Model of `_extract_value_from_json`: non-dicts yield `None`; for
dicts, the strategies run in priority order: common keys, then trailing
list elements, then any numeric field. -/
def extractValueFromJson : PyVal → Option PyVal
  | .dict fs =>
    match extractFromCommonKeys fs with
    | some v => some v
    | none =>
      match extractFromLists fs with
      | some v => some v
      | none => extractAnyNumeric fs
  | _ => none

/-- Model of `_parse_tool_result`: JSON extraction when the stripped text
opens a dict, otherwise the first-number regex scan; yields the value to
append to `computation_results` (or nothing). -/
def parseToolResult (result_str : String) : Option PyVal :=
  if (match result_str.toList.dropWhile Char.isWhitespace with
      | c :: _ => c = '{'
      | [] => false : Bool) then
    match jsonParse result_str with
    | some parsed => extractValueFromJson parsed
    | none => none
  else
    match parseFirstNumber result_str.toList with
    | some q => some (.float q)
    | none => none

/-- The status keywords of `_process_action_result` (note: `'failed'` is
absent here). -/
def statusWords : List String := ["sent", "created", "added", "successfully"]

/-- The exclusion keywords of `_is_computation_result` (these include
`'failed'`). -/
def computationExcludeWords : List String := ["sent", "created", "added", "successfully", "failed"]

/-- Whether one of the given words occurs in the lowercased text. -/
def containsAnyWord (words : List String) (s : String) : Bool :=
  words.any (fun w => PyStr.containsSub (PyStr.lower s) w)

/-- Whether a Python dict value counts as computational for
`_is_computation_result` (`isinstance(v, (int, float, bool, list))`). -/
def isComputationalValue : PyVal → Bool
  | .intv _ => true
  | .float _ => true
  | .boolv _ => true
  | .list _ => true
  | _ => false

/-- Model of `_is_computation_result i ar`: requires a successful result,
a current plan with a `tool_call` step at index `i`, text free of the five
exclusion keywords; then a JSON dict with some computational value, or —
only when JSON parsing fails — a digit in the text or the exact lowercase
text `true`/`false`. -/
def isComputationResult (decision : Option Decision) (i : Nat) (ar : ActionResult) : Bool :=
  match ar.result with
  | none => false
  | some r =>
    if ¬ ar.success then false
    else
      match decision with
      | none => false
      | some d =>
        if d.action_plan.length = 0 then false
        else if d.action_plan.length ≤ i then false
        else
          match d.action_plan.get? i with
          | none => false
          | some step =>
            if step.action_type ≠ "tool_call" then false
            else if containsAnyWord computationExcludeWords r then false
            else
              match jsonParse r with
              | some (.dict fs) => (fs.valuesList).any isComputationalValue
              | some _ => false
              | none =>
                (PyStr.lower r).toList.any Char.isDigit ||
                  PyStr.lower r = "true" || PyStr.lower r = "false"

/-- Model of `_process_action_result i ar`: the pair (status message
returned, computation value appended to `computation_results`). A
successful `tool_call` result containing one of the four `statusWords` is
a status message; otherwise, when `_is_computation_result` accepts it, its
parsed value is appended. -/
def processActionResult (d : Decision) (i : Nat) (ar : ActionResult) :
    Option String × Option PyVal :=
  match ar.result with
  | none => (none, none)
  | some r =>
    if ¬ ar.success then (none, none)
    else if d.action_plan.length ≤ i then (none, none)
    else
      match d.action_plan.get? i with
      | none => (none, none)
      | some step =>
        if step.action_type ≠ "tool_call" then (none, none)
        else if containsAnyWord statusWords r then (some r, none)
        else if isComputationResult (some d) i ar then (none, parseToolResult r)
        else (none, none)

/-- Model of `_has_chained_operations`. -/
def hasChainedOperations (comps : List PyVal) : Bool := 3 ≤ comps.length

/-- The fold step of `_finalize_result`'s loop over
`enumerate(self.state.action_results)`. -/
def finalizeStep (d : Decision) (acc : List PyVal × Option String)
    (p : Nat × ActionResult) : List PyVal × Option String :=
  (acc.1 ++ ((processActionResult d p.1 p.2).2).toList,
    match (processActionResult d p.1 p.2).1 with
    | some s => some s
    | none => acc.2)

/-- Model of `_finalize_result`: collect computation values and the last
status message over the executed results, then surface the final value of
a chained pipeline (3 or more values), both values comma-joined (exactly
2), the single value alone (exactly 1), or the last status message. -/
def finalizeResult (decision : Option Decision) (results : List ActionResult) :
    Option String :=
  match decision with
  | none => none
  | some d =>
    if d.action_plan.length = 0 then none
    else
      let folded := results.enum.foldl (finalizeStep d) ([], none)
      let comps := folded.1
      if comps.length ≠ 0 then
        if 1 < comps.length ∧ hasChainedOperations comps then
          some (pyReprVal (comps.getLastD PyVal.nonev))
        else if 1 < comps.length then
          some (String.intercalate ", " (comps.map pyReprVal))
        else some (pyReprVal (comps.headD PyVal.nonev))
      else
        match folded.2 with
        | some m => some m
        | none => none

end Finalize

namespace Finalize

open Py

/-- Whether the plan step at index `i` exists and is a `tool_call`. -/
def stepIsToolCall (d : Decision) (i : Nat) : Bool :=
  match d.action_plan.get? i with
  | some st => st.action_type = "tool_call"
  | none => false

/-- Amended-claim classification: a successful completed `tool_call`
result is a status message iff its text contains one of the four
completion verbs sent/created/added/successfully (not `failed`). -/
def specStatusOf (d : Decision) (p : Nat × ActionResult) : Option String :=
  match p.2.result with
  | some r =>
    if p.2.success && stepIsToolCall d p.1 && containsAnyWord statusWords r then some r
    else none
  | none => none

/-- Amended-claim classification: a successful completed `tool_call`
result that is not a status message contributes the value parsed from its
text iff it passes the computation heuristic. -/
def specCompOf (d : Decision) (p : Nat × ActionResult) : Option PyVal :=
  match p.2.result with
  | some r =>
    if p.2.success && stepIsToolCall d p.1 && !containsAnyWord statusWords r &&
        isComputationResult (some d) p.1 p.2 then parseToolResult r
    else none
  | none => none

/-- The amended claim's description of finalization: classify every
result independently, then surface only the last value when 3 or more
computation values exist, both comma-joined when exactly 2, the single
value alone, and otherwise the last status message. -/
def specFinalize (decision : Option Decision) (results : List ActionResult) :
    Option String :=
  match decision with
  | none => none
  | some d =>
    if d.action_plan.length = 0 then none
    else
      let comps := results.enum.filterMap (specCompOf d)
      let statuses := results.enum.filterMap (specStatusOf d)
      if 3 ≤ comps.length then (comps.getLast?).map pyReprVal
      else if comps.length = 2 then some (String.intercalate ", " (comps.map pyReprVal))
      else if comps.length = 1 then (comps.head?).map pyReprVal
      else statuses.getLast?

/-- `_process_action_result` decomposes into the two independent
classifications. -/
theorem processActionResult_eq_spec (d : Decision) (i : Nat) (ar : ActionResult) :
    processActionResult d i ar = (specStatusOf d (i, ar), specCompOf d (i, ar)) := by
  rcases ar with ⟨succ, res⟩
  cases res with
  | none => rfl
  | some r =>
    simp only [processActionResult, specStatusOf, specCompOf, stepIsToolCall]
    cases succ with
    | false => simp
    | true =>
      simp only [Bool.not_true, if_false, Bool.true_and]
      by_cases hb : d.action_plan.length ≤ i
      · have hnone : d.action_plan[i]? = none := List.getElem?_eq_none_iff.mpr hb
        simp [hb, hnone]
      · have hlt : i < d.action_plan.length := by omega
        obtain ⟨st, hst⟩ : ∃ st, d.action_plan[i]? = some st :=
          ⟨_, List.getElem?_eq_getElem hlt⟩
        simp only [List.get?_eq_getElem?, hb, if_false, hst]
        by_cases htc : st.action_type = "tool_call"
        · simp only [htc, if_pos rfl]
          by_cases hsw : containsAnyWord statusWords r = true
          · simp [hsw]
          · simp only [Bool.not_eq_true] at hsw
            simp [hsw]
            by_cases hic : isComputationResult (some d) i ⟨true, some r⟩ = true
            · simp [hic]
            · simp only [Bool.not_eq_true] at hic
              simp [hic]
        · simp [htc]

end Finalize

namespace Finalize

/-- The loop of `_finalize_result` computes the concatenated computation
values and the last status message. -/
theorem finalizeStep_fold (d : Decision) (l : List (Nat × ActionResult))
    (acc : List Py.PyVal) (st : Option String) :
    l.foldl (finalizeStep d) (acc, st) =
      (acc ++ l.filterMap (fun p => (processActionResult d p.1 p.2).2),
        match (l.filterMap (fun p => (processActionResult d p.1 p.2).1)).getLast? with
        | some m => some m
        | none => st) := by
  induction l generalizing acc st with
  | nil => simp
  | cons p rest ih =>
    rcases hpar : processActionResult d p.1 p.2 with ⟨status, comp⟩
    have hstep : finalizeStep d (acc, st) p =
        (acc ++ comp.toList, match status with
          | some s => some s
          | none => st) := by
      simp only [finalizeStep, hpar]
      cases status <;> rfl
    rw [List.foldl_cons, hstep, ih]
    simp only [List.filterMap_cons, hpar, Prod.mk.injEq]
    refine ⟨?_, ?_⟩
    · cases comp <;> simp
    · cases status with
      | none => rfl
      | some s =>
        cases hrest : rest.filterMap (fun p => (processActionResult d p.1 p.2).1) with
        | nil => simp [hrest]
        | cons b bs =>
          simp only [hrest]
          rcases hlast : (b :: bs).getLast? with _ | m
          · exact absurd hlast (by simp)
          · rw [List.getLast?_cons_cons, hlast]

end Finalize

namespace Finalize

/-- Claim C4 (amended): finalization classifies each successful completed
`tool_call` result as a status message iff its text contains one of the
four completion verbs sent/created/added/successfully (a result whose
text contains only `failed` is classified as neither status nor
computation), takes as computation values those passing the computation
heuristic with a parseable payload, and surfaces only the last value when
3 or more computation values exist, the two values comma-joined when
exactly 2, the single value alone when exactly 1, and otherwise the last
status message. -/
theorem finalize_result_spec (decision : Option Decision) (results : List ActionResult) :
    finalizeResult decision results = specFinalize decision results := by
  cases decision with
  | none => rfl
  | some d =>
    simp only [finalizeResult, specFinalize]
    by_cases hpl : d.action_plan.length = 0
    · simp [hpl]
    · simp only [hpl, if_false]
      rw [finalizeStep_fold]
      simp only [List.nil_append]
      have hcomp : (results.enum.filterMap (fun p => (processActionResult d p.1 p.2).2)) =
          results.enum.filterMap (specCompOf d) := by
        refine congrArg (fun f => List.filterMap f results.enum) ?_
        funext p
        rw [processActionResult_eq_spec]
      have hstat : (results.enum.filterMap (fun p => (processActionResult d p.1 p.2).1)) =
          results.enum.filterMap (specStatusOf d) := by
        refine congrArg (fun f => List.filterMap f results.enum) ?_
        funext p
        rw [processActionResult_eq_spec]
      rw [hcomp, hstat]
      rcases hc : results.enum.filterMap (specCompOf d) with _ | ⟨a, _ | ⟨b, _ | ⟨c, cs⟩⟩⟩
      · rw [if_neg (by simp), if_neg (by simp), if_neg (by simp), if_neg (by simp)]
        cases hs : (results.enum.filterMap (specStatusOf d)).getLast? <;> rfl
      · rw [if_pos (by simp), if_neg (by simp [hasChainedOperations]), if_neg (by simp),
          if_neg (by simp), if_neg (by simp), if_pos (by simp)]
        rfl
      · rw [if_pos (by simp), if_neg (by simp [hasChainedOperations]), if_pos (by simp),
          if_neg (by simp), if_pos (by simp)]
      · rw [if_pos (by simp),
          if_pos (by
            refine ⟨by simp, ?_⟩
            simp [hasChainedOperations]),
          if_pos (by simp)]
        rcases hlast : (a :: b :: c :: cs).getLast? with _ | m
        · exact absurd hlast (by simp)
        · have hLD : (a :: b :: c :: cs).getLastD Py.PyVal.nonev = m := by
            rw [List.getLastD_eq_getLast?, hlast]
            rfl
          rw [hLD]
          rfl

end Finalize

namespace Finalize

/-- The five completion verbs exactly as the claim lists them for status
classification. -/
def claimStatusWords : List String := ["sent", "created", "added", "successfully", "failed"]

/-- Claim C4 as stated is false: the claim classifies a successful
completed `tool_call` result whose text is `"failed"` as a status message
(its text contains the claimed completion verb `failed`) and, there being
no computation value, predicts that it is surfaced; but
`_process_action_result` checks only the four verbs
sent/created/added/successfully, so the code classifies this result as
neither status message nor computation value, and finalization surfaces
nothing. -/
theorem finalize_failed_keyword_counterexample :
    containsAnyWord claimStatusWords "failed" = true ∧
    processActionResult ⟨[⟨1, "tool_call"⟩]⟩ 0 ⟨true, some "failed"⟩ = (none, none) ∧
    finalizeResult (some ⟨[⟨1, "tool_call"⟩]⟩) [⟨true, some "failed"⟩] = none := by
  exact ⟨by decide, by rfl, by rfl⟩

end Finalize

/-! ## Section C5: decision-layer parse fallback (`src/agent/decision.py`,
`DecisionLayer.decide`) -/

namespace DecideLayer

open Py

/-- Model of Python `str.strip()` on character lists. -/
def stripChars (cs : List Char) : List Char :=
  ((cs.dropWhile Char.isWhitespace).reverse.dropWhile Char.isWhitespace).reverse

/-- Model of `str.split('\n')` (empty fields kept). -/
def splitNl : List Char → List Char → List String
  | [], acc => [String.mk acc.reverse]
  | c :: rest, acc =>
    if c = '\n' then String.mk acc.reverse :: splitNl rest []
    else splitNl rest (c :: acc)

/-- The markdown-fence stripping of `decide`: when the (stripped)
response starts with three backticks, drop every line that is blank or
starts (after stripping) with three backticks, and re-join with
newlines. -/
def stripFences (response_text : String) : String :=
  let t := String.mk (stripChars response_text.toList)
  if "```".toList.isPrefixOf t.toList then
    let lines := splitNl t.toList []
    let kept := lines.filter (fun l =>
      let ls := stripChars l.toList
      ¬ ls.isEmpty ∧ ¬ "```".toList.isPrefixOf ls)
    String.intercalate "\n" kept
  else t

/-- Embedding of the `ActionStep` pydantic model as `decide` builds and
validates it. -/
structure CogActionStep where
  step_number : Int
  action_type : String
  description : String
  tool_name : Option String
  parameters : PyVal
  reasoning : String
  reasoning_type : String

/-- Embedding of the `DecisionOutput` pydantic model. -/
structure CogDecision where
  action_plan : List CogActionStep
  reasoning : String
  reasoning_type : String
  expected_outcome : String
  confidence : ℚ
  should_continue : Bool

/-- The fixed single-step fallback plan built in the
`json.JSONDecodeError` handler of `decide`. -/
def fallbackDecision : CogDecision :=
  { action_plan := [
      { step_number := 1
        action_type := "response"
        description := "Provide direct response to user"
        tool_name := none
        parameters := PyVal.dict PyFields.nil
        reasoning := "Fallback due to decision parsing error"
        reasoning_type := "" }]
    reasoning := "Unable to create detailed plan, providing direct response"
    reasoning_type := ""
    expected_outcome := "User receives acknowledgment"
    confidence := Rat.divInt 1 2
    should_continue := false }

/-- Pydantic validation of one `ActionStep` dict (model: required
`step_number` (int, >= 1), `action_type` and `description` (str);
optional `tool_name` (str or null), `parameters` (dict, default empty),
`reasoning` and `reasoning_type` (str, default ""); coercions are not
modelled). -/
def validateActionStep (v : PyVal) : Option CogActionStep :=
  match v with
  | .dict fs =>
    match fs.lookup "step_number", fs.lookup "action_type", fs.lookup "description" with
    | some (.intv n), some (.str at'), some (.str desc) =>
      if n < 1 then none
      else
        let tool := match fs.lookup "tool_name" with
          | some (.str s) => some (some s)
          | some .nonev => some none
          | none => some none
          | _ => none
        let params := match fs.lookup "parameters" with
          | some (.dict pf) => some (PyVal.dict pf)
          | none => some (PyVal.dict PyFields.nil)
          | _ => none
        let reas := match fs.lookup "reasoning" with
          | some (.str s) => some s
          | none => some ""
          | _ => none
        let rtype := match fs.lookup "reasoning_type" with
          | some (.str s) => some s
          | none => some ""
          | _ => none
        match tool, params, reas, rtype with
        | some t, some p, some r, some rt =>
          some ⟨n, at', desc, t, p, r, rt⟩
        | _, _, _, _ => none
    | _, _, _ => none
  | _ => none

/-- Validate the list of action steps. -/
def validateSteps : PyItems → Option (List CogActionStep)
  | .nil => some []
  | .cons v rest =>
    match validateActionStep v, validateSteps rest with
    | some s, some ss => some (s :: ss)
    | _, _ => none

/-- A JSON number read as a confidence value. -/
def asRat : PyVal → Option ℚ
  | .intv n => some (n : ℚ)
  | .float q => some q
  | _ => none

/-- Pydantic validation of a `DecisionOutput` dict (model: required
`action_plan` (list of valid steps) and `reasoning` (str); optional
`reasoning_type`, `expected_outcome` (str, default ""), `confidence`
(number in [0,1], default 1), `should_continue` (bool, default True)). -/
def validateDecision (j : PyVal) : Option CogDecision :=
  match j with
  | .dict fs =>
    match fs.lookup "action_plan", fs.lookup "reasoning" with
    | some (.list items), some (.str reas) =>
      match validateSteps items with
      | some steps =>
        let rtype := match fs.lookup "reasoning_type" with
          | some (.str s) => some s
          | none => some ""
          | _ => none
        let outc := match fs.lookup "expected_outcome" with
          | some (.str s) => some s
          | none => some ""
          | _ => none
        let conf := match fs.lookup "confidence" with
          | some v =>
            match asRat v with
            | some q => if 0 ≤ q ∧ q ≤ 1 then some q else none
            | none => none
          | none => some 1
        let cont := match fs.lookup "should_continue" with
          | some (.boolv b) => some b
          | none => some true
          | _ => none
        match rtype, outc, conf, cont with
        | some rt, some oc, some cf, some ct =>
          some ⟨steps, reas, rt, oc, cf, ct⟩
        | _, _, _, _ => none
      | none => none
    | _, _ => none
  | _ => none

/-- Embedding of the parse-and-validate tail of `DecisionLayer.decide`:
fence-stripping, then `json.loads` — whose failure alone is caught and
answered with the fixed fallback plan — then pydantic validation, whose
failure reaches the generic handler and is re-raised as a `ValueError`
(`Decision-making failed`). -/
def decideModel (response_text : String) : Except String CogDecision :=
  match jsonParse (stripFences response_text) with
  | none => Except.ok fallbackDecision
  | some j =>
    match validateDecision j with
    | some d => Except.ok d
    | none => Except.error "Decision-making failed"

end DecideLayer

namespace DecideLayer

/-- Claim C5 (amended): whenever the decision response is not valid JSON
(after fence stripping), `decide` recovers locally with the fixed
single-step fallback plan — one `response` action, confidence 0.5,
`should_continue = false` — and raises no error; schema-validation
failures, by contrast, are not recovered (see the counterexample). -/
theorem decide_parse_failure_fallback (response_text : String)
    (h : Py.jsonParse (stripFences response_text) = none) :
    decideModel response_text = Except.ok fallbackDecision ∧
    fallbackDecision.confidence = Rat.divInt 1 2 ∧
    fallbackDecision.should_continue = false ∧
    fallbackDecision.action_plan.length = 1 ∧
    (fallbackDecision.action_plan.headD
      ⟨0, "", "", none, Py.PyVal.nonev, "", ""⟩).action_type = "response" := by
  refine ⟨?_, rfl, rfl, rfl, rfl⟩
  rw [decideModel, h]

/-- Witness for the amended C5 at a concrete non-JSON oracle response. -/
theorem decide_parse_failure_fallback_witness :
    decideModel "I cannot produce a plan." = Except.ok fallbackDecision ∧
    fallbackDecision.confidence = Rat.divInt 1 2 ∧
    fallbackDecision.should_continue = false ∧
    fallbackDecision.action_plan.length = 1 ∧
    (fallbackDecision.action_plan.headD
      ⟨0, "", "", none, Py.PyVal.nonev, "", ""⟩).action_type = "response" :=
  decide_parse_failure_fallback "I cannot produce a plan." (by rfl)

/-- Claim C5 as stated is false on the code: a planning response that is
valid JSON but fails schema validation (here an object with none of the
required `DecisionOutput` fields) is not recovered into the fallback
plan; `decide` re-raises it as a hard `ValueError`, which propagates to
the caller. -/
theorem decide_schema_failure_counterexample :
    (Py.jsonParse (stripFences "\x7b\"foo\": 1\x7d")).isSome = true ∧
    decideModel "\x7b\"foo\": 1\x7d" = Except.error "Decision-making failed" := by
  exact ⟨by rfl, by rfl⟩

end DecideLayer

/-! ## Section C6/C10: placeholder resolution (`src/agent/ai_agent.py`,
`_replace_result_placeholders` / `_replace_placeholder` /
`_extract_value_from_result` and the e-mail formatting helpers) -/

namespace Resolve

open Py

/-- The agent state consulted by placeholder resolution: the
`initial_query` stored in the memory context (empty string when absent),
and the cognitive state used by `_build_email_result_string`. -/
structure AgentCtx where
  initial_query : String
  decision : Option Finalize.Decision
  action_results : List Finalize.ActionResult

/-- Model of `_extract_value_from_result`: numbers and booleans pass
through; strings go through `json.loads` + `_extract_value_from_json`,
falling back to the first-number regex scan only when JSON parsing
raises; everything else yields `None`. -/
def extractValueFromResult : PyVal → Option PyVal
  | .intv n => some (.intv n)
  | .float q => some (.float q)
  | .boolv b => some (.boolv b)
  | .str s =>
    (match jsonParse s with
     | some parsed => Finalize.extractValueFromJson parsed
     | none =>
       match parseFirstNumber s.toList with
       | some q => some (.float q)
       | none => none)
  | _ => none

/-- Model of `_format_result_as_string`. -/
def formatResultAsString : PyVal → String
  | .boolv b => if b then "True" else "False"
  | .float q => if q.den = 1 then String.mk (intRepr q.num) else pyReprVal (.float q)
  | v => pyReprVal v

/-- Separator join over character lists (model of `sep.join(parts)`),
structural so that its character content is easy to reason about. -/
def joinSep (sep : List Char) : List String → List Char
  | [] => []
  | [l] => l.toList
  | l :: rest => l.toList ++ sep ++ joinSep sep rest

/-- Model of `'\n'.join(lines)`. -/
def joinNl : List String → List Char := joinSep ['\n']

/-- Model of `_build_email_content`: fixed header/footer, the original
query when present, and the computed result line. -/
def buildEmailContent (ctx : AgentCtx) (result_str : String) : String :=
  let eq40 := String.mk (List.replicate 40 '=')
  let lines₁ := ["AI Agent Result", eq40, ""]
  let lines₂ :=
    if ctx.initial_query ≠ "" then lines₁ ++ ["Query: " ++ ctx.initial_query, ""]
    else lines₁
  String.mk (joinNl (lines₂ ++ ["Result: " ++ result_str, "", eq40, "Computed by AI Agent"]))

/-- Model of `_build_email_result_string`: re-collect the computation
values of the executed results, then format the last of a chained
pipeline, a comma-join of several independent values, the single value,
or the freshly extracted value. -/
def buildEmailResultString (ctx : AgentCtx) (extracted : PyVal) : String :=
  let comps := ctx.action_results.enum.filterMap (fun p =>
    if Finalize.isComputationResult ctx.decision p.1 p.2 then
      match p.2.result with
      | some r => Finalize.parseToolResult r
      | none => none
    else none)
  if 1 < comps.length ∧ Finalize.hasChainedOperations comps then
    formatResultAsString (comps.getLastD PyVal.nonev)
  else if 1 < comps.length then
    String.mk (joinSep ", ".toList (comps.map pyReprVal))
  else if comps.length ≠ 0 then
    formatResultAsString (comps.headD PyVal.nonev)
  else formatResultAsString extracted

/-- The parameter names treated as free text by `_replace_placeholder`. -/
def freeTextNames : List String := ["content", "text", "message", "body", "description"]

/-- Model of `_replace_placeholder`: only strings are touched; the first
`RESULT_FROM_STEP_N` token decides the step; unresolved steps pass the
string through; otherwise the whole string is replaced by the extracted
value, by the raw step result when nothing is extractable, or by the
formatted e-mail report for free-text parameter names. -/
def replacePlaceholder (ctx : AgentCtx) (resultsMap : List (Nat × PyVal))
    (value : PyVal) (param_name : Option String) : PyVal :=
  match value with
  | .str s =>
    (match PyStr.findStepTokenStr s with
     | none => .str s
     | some n =>
       match resultsMap.lookup n with
       | none => .str s
       | some result =>
         match extractValueFromResult result with
         | none => result
         | some extracted =>
           let needs : Bool := match param_name with
             | some p => !(p = "") && freeTextNames.contains (PyStr.lower p)
             | none => false
           if needs then
             .str (buildEmailContent ctx (buildEmailResultString ctx extracted))
           else extracted)
  | v => v

mutual
/-- The `replace_recursive` closure of `_replace_result_placeholders`
(`copy.deepcopy` builds an isomorphic tree, so it is the identity in this
pure model; claim C9 treats the heap behaviour separately). -/
def replaceRec (ctx : AgentCtx) (resultsMap : List (Nat × PyVal)) :
    PyVal → Option String → PyVal
  | .str s, pn => replacePlaceholder ctx resultsMap (.str s) pn
  | .dict fs, _ => .dict (replaceRecFields ctx resultsMap fs)
  | .list items, _ => .list (replaceRecItems ctx resultsMap items)
  | v, _ => v

/-- Dict recursion: values resolve under their own key as parameter
name. -/
def replaceRecFields (ctx : AgentCtx) (resultsMap : List (Nat × PyVal)) :
    PyFields → PyFields
  | .nil => .nil
  | .cons k v rest =>
    .cons k (replaceRec ctx resultsMap v (some k)) (replaceRecFields ctx resultsMap rest)

/-- List recursion: items resolve with no parameter name. -/
def replaceRecItems (ctx : AgentCtx) (resultsMap : List (Nat × PyVal)) :
    PyItems → PyItems
  | .nil => .nil
  | .cons v rest =>
    .cons (replaceRec ctx resultsMap v none) (replaceRecItems ctx resultsMap rest)
end

/-- Model of `_replace_result_placeholders` on a parameters dict. -/
def replaceResultPlaceholders (ctx : AgentCtx) (resultsMap : List (Nat × PyVal))
    (params : PyFields) : PyFields :=
  replaceRecFields ctx resultsMap params

end Resolve

namespace Resolve

open Py

/-- Context with nothing stored (fresh request, no completed actions). -/
def ctx0 : AgentCtx := ⟨"", none, []⟩

/-- A results map whose step-1 result is a JSON object that itself
embeds a `RESULT_FROM_STEP_2` token, with step 2 also present. -/
def map0 : List (Nat × PyVal) :=
  [(1, PyVal.str "\x7b\"x\": \"RESULT_FROM_STEP_2\"\x7d"), (2, PyVal.str "99")]

/-- Parameters referring to step 1 under a non-free-text name. -/
def params0 : PyFields := PyFields.cons "a" (PyVal.str "RESULT_FROM_STEP_1") PyFields.nil

/-- Observation: the string payload of the first field. -/
def headFieldStr : PyFields → String
  | .cons _ (.str s) _ => s
  | _ => ""

end Resolve


namespace Resolve

open Py

/-- Claim C6 as stated is false on the code: resolving once replaces the
step-1 reference by the raw step-1 result (a JSON object string from
which no numeric value is extractable) which itself contains a
`RESULT_FROM_STEP_2` token; resolving the output a second time against
the same map then replaces that token by step 2's value, so the second
application changes the result. -/
theorem replace_placeholders_not_idempotent :
    headFieldStr (replaceResultPlaceholders ctx0 map0 params0) =
      "\x7b\"x\": \"RESULT_FROM_STEP_2\"\x7d" ∧
    headFieldStr (replaceResultPlaceholders ctx0 map0
      (replaceResultPlaceholders ctx0 map0 params0)) = "99" ∧
    replaceResultPlaceholders ctx0 map0 (replaceResultPlaceholders ctx0 map0 params0) ≠
      replaceResultPlaceholders ctx0 map0 params0 := by
  refine ⟨rfl, rfl, ?_⟩
  intro h
  have hh := congrArg headFieldStr h
  exact absurd hh (by decide)

/-- Whether the token regex matches at the head of `cs`. -/
def tokenMatchB (cs : List Char) : Bool :=
  PyStr.stepTokenChars.isPrefixOf cs &&
    !((PyStr.takeDigits (cs.drop PyStr.stepTokenChars.length)).1.isEmpty)

/-- `takeDigits` splits a digit run followed by a non-digit exactly. -/
theorem takeDigits_append (ds b : List Char) (hdig : ∀ c ∈ ds, c.isDigit)
    (hb : (b.headD ' ').isDigit = false) :
    PyStr.takeDigits (ds ++ b) = (ds, b) := by
  induction ds with
  | nil =>
    cases b with
    | nil => rfl
    | cons c r =>
      simp only [List.headD_cons] at hb
      simp [PyStr.takeDigits, hb]
  | cons d ds' ih =>
    have hd : d.isDigit := hdig d (by simp)
    have ih' := ih (fun c hc => hdig c (by simp [hc]))
    simp [PyStr.takeDigits, hd, ih']

/-- The scanner finds the leftmost token occurrence and reads its digit
group. -/
theorem findStepToken_leftmost (a ds b : List Char)
    (hfirst : ∀ i < a.length,
      tokenMatchB ((a ++ PyStr.stepTokenChars ++ ds ++ b).drop i) = false)
    (hne : ds ≠ []) (hdig : ∀ c ∈ ds, c.isDigit)
    (hb : (b.headD ' ').isDigit = false) :
    PyStr.findStepToken (a ++ PyStr.stepTokenChars ++ ds ++ b) =
      some (PyStr.digitsToNat ds) := by
  induction a with
  | nil =>
    simp only [List.nil_append]
    rw [PyStr.findStepToken.eq_def]
    cases hcs : PyStr.stepTokenChars ++ ds ++ b with
    | nil => simp [PyStr.stepTokenChars] at hcs
    | cons c rest =>
      rw [← hcs]
      have hpre : PyStr.stepTokenChars.isPrefixOf (PyStr.stepTokenChars ++ ds ++ b) = true := by
        rw [List.append_assoc]
        exact List.isPrefixOf_iff_prefix.mpr (List.prefix_append _ _)
      rw [hcs] at hpre ⊢
      simp only [hpre, if_true]
      rw [← hcs, List.append_assoc, List.drop_left, takeDigits_append ds b hdig hb]
      simp [List.isEmpty_iff, hne]
  | cons x a' ih =>
    have hxa : (x :: a') ++ PyStr.stepTokenChars ++ ds ++ b =
        x :: (a' ++ PyStr.stepTokenChars ++ ds ++ b) := by simp
    have h0 := hfirst 0 (by simp)
    rw [List.drop_zero, hxa] at h0
    have hstep : ∀ i < a'.length,
        tokenMatchB ((a' ++ PyStr.stepTokenChars ++ ds ++ b).drop i) = false := by
      intro i hi
      have h2 := hfirst (i + 1) (by simp; omega)
      rw [hxa] at h2
      simpa using h2
    rw [hxa]
    simp only [PyStr.findStepToken]
    by_cases hpre : PyStr.stepTokenChars.isPrefixOf
        (x :: (a' ++ PyStr.stepTokenChars ++ ds ++ b)) = true
    · have hdempty : ((PyStr.takeDigits
          ((x :: (a' ++ PyStr.stepTokenChars ++ ds ++ b)).drop
            PyStr.stepTokenChars.length)).1).isEmpty = true := by
        rw [tokenMatchB] at h0
        simp only [hpre, Bool.true_and] at h0
        simpa using h0
      simp only [hpre, if_true, hdempty]
      exact ih hstep
    · simp only [Bool.not_eq_true] at hpre
      simp only [hpre, if_false]
      exact ih hstep

/-- Claim C10: for a string parameter containing a `RESULT_FROM_STEP_N`
token (here decomposed as prefix `a`, the token literal, its digit group
`ds` — maximal, being followed by a non-digit — and suffix `b`, with no
earlier token occurrence inside `a`), when step `N` is present in the
results map and the parameter name is not one of the free-text names,
resolution discards the surrounding text entirely and returns the value
extracted from step `N`'s result, or the whole raw step result when
nothing is extractable. -/
theorem replace_placeholder_replaces_whole_string
    (ctx : AgentCtx) (resultsMap : List (Nat × PyVal)) (pname : String)
    (a ds b : List Char) (result : PyVal)
    (hfirst : ∀ i < a.length,
      tokenMatchB ((a ++ PyStr.stepTokenChars ++ ds ++ b).drop i) = false)
    (hne : ds ≠ []) (hdig : ∀ c ∈ ds, c.isDigit)
    (hb : (b.headD ' ').isDigit = false)
    (hlook : resultsMap.lookup (PyStr.digitsToNat ds) = some result)
    (hp : freeTextNames.contains (PyStr.lower pname) = false) :
    replacePlaceholder ctx resultsMap
      (.str (String.mk (a ++ PyStr.stepTokenChars ++ ds ++ b))) (some pname) =
      (match extractValueFromResult result with
       | some e => e
       | none => result) := by
  have hscan : PyStr.findStepTokenStr (String.mk (a ++ PyStr.stepTokenChars ++ ds ++ b)) =
      some (PyStr.digitsToNat ds) := by
    rw [PyStr.findStepTokenStr]
    exact findStepToken_leftmost a ds b hfirst hne hdig hb
  simp only [replacePlaceholder, hscan, hlook]
  cases hext : extractValueFromResult result with
  | none => rfl
  | some e =>
    simp only [hext, hp, Bool.and_false]
    rfl

/-- Witness for C10 at a concrete input: the parameter
`"abc RESULT_FROM_STEP_7 xyz"` under name `url` with step 7 mapped to the
tool text `"hello 42"`; the whole string is replaced by the extracted
number `42.0`. -/
theorem replace_placeholder_replaces_whole_string_witness :
    replacePlaceholder ctx0 [(7, PyVal.str "hello 42")]
      (.str (String.mk ("abc ".toList ++ PyStr.stepTokenChars ++ "7".toList ++ " xyz".toList)))
      (some "url") =
      (match extractValueFromResult (PyVal.str "hello 42") with
       | some e => e
       | none => PyVal.str "hello 42") :=
  replace_placeholder_replaces_whole_string ctx0 [(7, PyVal.str "hello 42")] "url"
    "abc ".toList "7".toList " xyz".toList (PyVal.str "hello 42")
    (by decide) (by decide) (by decide) (by decide) (by rfl) (by decide)

end Resolve

namespace Resolve

open Py

mutual
/-- No string anywhere in the value contains an underscore (so no
`RESULT_FROM_STEP_` token can hide in it). -/
def cleanVal : PyVal → Bool
  | .str s => !(s.toList.contains '_')
  | .dict fs => cleanFields fs
  | .list items => cleanItems items
  | _ => true

def cleanFields : PyFields → Bool
  | .nil => true
  | .cons _ v r => cleanVal v && cleanFields r

def cleanItems : PyItems → Bool
  | .nil => true
  | .cons v r => cleanVal v && cleanItems r
end

/-- A character list without underscores cannot contain the placeholder
token, so the scanner fails on it. -/
theorem findStepToken_none_of_clean (cs : List Char) (h : '_' ∉ cs) :
    PyStr.findStepToken cs = none := by
  induction cs with
  | nil => rfl
  | cons c rest ih =>
    have hrest : '_' ∉ rest := fun hmem => h (List.mem_cons_of_mem c hmem)
    have hpre : PyStr.stepTokenChars.isPrefixOf (c :: rest) = false := by
      by_contra hcon
      simp only [Bool.not_eq_false] at hcon
      obtain ⟨t, ht⟩ := List.isPrefixOf_iff_prefix.mp hcon
      apply h
      rw [← ht]
      have : '_' ∈ PyStr.stepTokenChars := by decide
      exact List.mem_append_left t this
    simp only [PyStr.findStepToken, hpre, if_false]
    exact ih hrest

/-- All characters emitted by the digit renderer are decimal digits. -/
theorem natDigitsAux_no_underscore (fuel n : Nat) :
    '_' ∉ natDigitsAux fuel n := by
  induction fuel generalizing n with
  | zero => simp [natDigitsAux]
  | succ fuel ih =>
    intro hmem
    rw [natDigitsAux] at hmem
    by_cases hn : n < 10
    · rw [if_pos hn] at hmem
      rcases List.mem_singleton.mp hmem with heq
      have : Char.ofNat ('0'.toNat + n) ≠ '_' := by
        interval_cases n <;> decide
      exact this heq.symm
    · rw [if_neg hn] at hmem
      rcases List.mem_append.mp hmem with hmem₁ | hmem₂
      · exact ih (n / 10) hmem₁
      · rcases List.mem_singleton.mp hmem₂ with heq
        have hlt : n % 10 < 10 := Nat.mod_lt n (by omega)
        have : Char.ofNat ('0'.toNat + n % 10) ≠ '_' := by
          set d := n % 10 with hd
          interval_cases d <;> decide
        exact this heq.symm

theorem intRepr_no_underscore (i : Int) : '_' ∉ intRepr i := by
  cases i with
  | ofNat n => exact natDigitsAux_no_underscore (n + 1) n
  | negSucc n =>
    intro hmem
    rcases List.mem_cons.mp hmem with heq | hmem'
    · exact absurd heq (by decide)
    · exact natDigitsAux_no_underscore (n + 2) (n + 1) hmem'

/-- Joined parts without underscores stay underscore-free. -/
theorem joinSep_no_underscore (sep : List Char) (parts : List String)
    (hsep : '_' ∉ sep) (hparts : ∀ p ∈ parts, '_' ∉ p.toList) :
    '_' ∉ joinSep sep parts := by
  induction parts with
  | nil => simp [joinSep]
  | cons l rest ih =>
    cases rest with
    | nil =>
      simpa [joinSep] using hparts l (by simp)
    | cons l₂ r₂ =>
      intro hmem
      have hj : joinSep sep (l :: l₂ :: r₂) = l.toList ++ sep ++ joinSep sep (l₂ :: r₂) := by
        rw [joinSep]
        simp
      rw [hj] at hmem
      rcases List.mem_append.mp hmem with h₁ | h₂
      · rcases List.mem_append.mp h₁ with ha | hb
        · exact hparts l (by simp) ha
        · exact hsep hb
      · exact ih (fun p hp => hparts p (List.mem_cons_of_mem l hp)) h₂

end Resolve

namespace Resolve

open Py

/-- The shapes an extracted value can take: numbers, booleans, or the
exact strings `"True"`/`"False"`. -/
def safeVal : PyVal → Prop
  | .intv _ => True
  | .float _ => True
  | .boolv _ => True
  | .str s => s = "True" ∨ s = "False"
  | _ => False

theorem formatValue_safe (v e : PyVal) (h : Finalize.formatValue v = some e) :
    safeVal e := by
  cases v with
  | boolv b =>
    simp only [Finalize.formatValue] at h
    obtain rfl := Option.some_inj.mp h
    cases b <;> simp [safeVal]
  | intv n =>
    simp only [Finalize.formatValue] at h
    obtain rfl := Option.some_inj.mp h
    simp [safeVal]
  | float q =>
    simp only [Finalize.formatValue] at h
    obtain rfl := Option.some_inj.mp h
    simp [safeVal]
  | str s => simp [Finalize.formatValue] at h
  | nonev => simp [Finalize.formatValue] at h
  | dict fs => simp [Finalize.formatValue] at h
  | list items => simp [Finalize.formatValue] at h

theorem extractFromCommonKeys_go_safe (fs : PyFields) (ks : List String) (e : PyVal)
    (h : Finalize.extractFromCommonKeys.go fs ks = some e) : safeVal e := by
  induction ks with
  | nil => simp [Finalize.extractFromCommonKeys.go] at h
  | cons k ks ih =>
    rw [Finalize.extractFromCommonKeys.go] at h
    cases hl : fs.lookup k with
    | none =>
      simp only [hl] at h
      exact ih h
    | some v =>
      simp only [hl] at h
      cases v with
      | nonev => exact ih h
      | str s => exact formatValue_safe _ _ h
      | intv n => exact formatValue_safe _ _ h
      | float q => exact formatValue_safe _ _ h
      | boolv b => exact formatValue_safe _ _ h
      | dict fs' => exact formatValue_safe _ _ h
      | list items => exact formatValue_safe _ _ h

theorem extractFromLists_go_safe (vs : List PyVal) (e : PyVal)
    (h : Finalize.extractFromLists.go vs = some e) : safeVal e := by
  induction vs with
  | nil => simp [Finalize.extractFromLists.go] at h
  | cons v rest ih =>
    cases v with
    | list items =>
      rw [Finalize.extractFromLists.go] at h
      cases hl : Finalize.pyItemsLast items with
      | none =>
        simp only [hl] at h
        exact ih h
      | some w =>
        simp only [hl] at h
        cases w with
        | intv n =>
          obtain rfl := Option.some_inj.mp h
          simp [safeVal]
        | float q =>
          obtain rfl := Option.some_inj.mp h
          simp [safeVal]
        | boolv b =>
          obtain rfl := Option.some_inj.mp h
          simp [safeVal]
        | str s => exact ih h
        | nonev => exact ih h
        | dict fs => exact ih h
        | list its => exact ih h
    | str s =>
      simp only [Finalize.extractFromLists.go] at h
      exact ih h
    | intv n =>
      simp only [Finalize.extractFromLists.go] at h
      exact ih h
    | float q =>
      simp only [Finalize.extractFromLists.go] at h
      exact ih h
    | boolv b =>
      simp only [Finalize.extractFromLists.go] at h
      exact ih h
    | nonev =>
      simp only [Finalize.extractFromLists.go] at h
      exact ih h
    | dict fs =>
      simp only [Finalize.extractFromLists.go] at h
      exact ih h

theorem extractAnyNumeric_go_safe (vs : List PyVal) (e : PyVal)
    (h : Finalize.extractAnyNumeric.go vs = some e) : safeVal e := by
  induction vs with
  | nil => simp [Finalize.extractAnyNumeric.go] at h
  | cons v rest ih =>
    rw [Finalize.extractAnyNumeric.go] at h
    cases hf : Finalize.formatValue v with
    | none =>
      simp only [hf] at h
      exact ih h
    | some x =>
      simp only [hf] at h
      obtain rfl := Option.some_inj.mp h
      exact formatValue_safe _ _ hf

theorem extractValueFromJson_safe (parsed e : PyVal)
    (h : Finalize.extractValueFromJson parsed = some e) : safeVal e := by
  cases parsed with
  | dict fs =>
    rw [Finalize.extractValueFromJson] at h
    cases h₁ : Finalize.extractFromCommonKeys fs with
    | some x =>
      simp only [h₁] at h
      obtain rfl := Option.some_inj.mp h
      exact extractFromCommonKeys_go_safe fs Finalize.commonKeys _ h₁
    | none =>
      simp only [h₁] at h
      cases h₂ : Finalize.extractFromLists fs with
      | some x =>
        simp only [h₂] at h
        obtain rfl := Option.some_inj.mp h
        exact extractFromLists_go_safe fs.valuesList _ h₂
      | none =>
        simp only [h₂] at h
        exact extractAnyNumeric_go_safe fs.valuesList e h
  | str s => simp [Finalize.extractValueFromJson] at h
  | intv n => simp [Finalize.extractValueFromJson] at h
  | float q => simp [Finalize.extractValueFromJson] at h
  | boolv b => simp [Finalize.extractValueFromJson] at h
  | nonev => simp [Finalize.extractValueFromJson] at h
  | list items => simp [Finalize.extractValueFromJson] at h

theorem parseToolResult_safe (r : String) (e : PyVal)
    (h : Finalize.parseToolResult r = some e) : safeVal e := by
  rw [Finalize.parseToolResult] at h
  split at h
  · cases hp : jsonParse r with
    | none =>
      simp only [hp] at h
      exact Option.noConfusion h
    | some parsed =>
      simp only [hp] at h
      exact extractValueFromJson_safe parsed e h
  · cases hn : parseFirstNumber r.toList with
    | none =>
      simp only [hn] at h
      exact Option.noConfusion h
    | some q =>
      simp only [hn] at h
      obtain rfl := Option.some_inj.mp h
      simp [safeVal]

theorem extractValueFromResult_safe (r e : PyVal)
    (h : extractValueFromResult r = some e) : safeVal e := by
  cases r with
  | intv n =>
    obtain rfl := Option.some_inj.mp h
    simp [safeVal]
  | float q =>
    obtain rfl := Option.some_inj.mp h
    simp [safeVal]
  | boolv b =>
    obtain rfl := Option.some_inj.mp h
    simp [safeVal]
  | str s =>
    rw [extractValueFromResult] at h
    cases hp : jsonParse s with
    | some parsed =>
      simp only [hp] at h
      exact extractValueFromJson_safe parsed e h
    | none =>
      simp only [hp] at h
      cases hn : parseFirstNumber s.toList with
      | none =>
        simp only [hn] at h
        exact Option.noConfusion h
      | some q =>
        simp only [hn] at h
        obtain rfl := Option.some_inj.mp h
        simp [safeVal]
  | nonev => simp [extractValueFromResult] at h
  | dict fs => simp [extractValueFromResult] at h
  | list items => simp [extractValueFromResult] at h

end Resolve

namespace Resolve

open Py

theorem pyReprVal_clean (v : PyVal) (hsafe : safeVal v) :
    '_' ∉ (pyReprVal v).toList := by
  cases v with
  | intv n => exact intRepr_no_underscore n
  | float q =>
    rw [pyReprVal]
    by_cases hden : q.den = 1
    · rw [if_pos hden]
      intro hmem
      rcases List.mem_append.mp hmem with h₁ | h₂
      · exact intRepr_no_underscore q.num h₁
      · exact absurd h₂ (by decide)
    · rw [if_neg hden]
      intro hmem
      rcases List.mem_append.mp hmem with h₁ | h₂
      · rcases List.mem_append.mp h₁ with ha | hb
        · exact intRepr_no_underscore q.num ha
        · exact absurd hb (by decide)
      · exact natDigitsAux_no_underscore (q.den + 1) q.den h₂
  | boolv b => cases b <;> decide
  | str s =>
    rcases hsafe with rfl | rfl <;> decide
  | nonev => exact absurd hsafe (by simp [safeVal])
  | dict fs => exact absurd hsafe (by simp [safeVal])
  | list items => exact absurd hsafe (by simp [safeVal])

theorem formatResultAsString_clean (v : PyVal) (hsafe : safeVal v ∨ v = PyVal.nonev) :
    '_' ∉ (formatResultAsString v).toList := by
  cases v with
  | boolv b => cases b <;> decide
  | float q =>
    rw [formatResultAsString]
    by_cases hden : q.den = 1
    · rw [if_pos hden]
      exact intRepr_no_underscore q.num
    · rw [if_neg hden]
      exact pyReprVal_clean (.float q) (by simp [safeVal])
  | intv n => exact intRepr_no_underscore n
  | str s =>
    rcases hsafe with hs | hcon
    · rcases hs with rfl | rfl <;> decide
    · exact absurd hcon (by simp)
  | nonev => decide
  | dict fs =>
    rcases hsafe with hs | hcon
    · exact absurd hs (by simp [safeVal])
    · exact absurd hcon (by simp)
  | list items =>
    rcases hsafe with hs | hcon
    · exact absurd hs (by simp [safeVal])
    · exact absurd hcon (by simp)

/-- The last element (with default) of a list is a member or the
default. -/
theorem getLastD_mem_or_default {α : Type} (l : List α) (d : α) :
    l.getLastD d ∈ l ∨ l.getLastD d = d := by
  cases l with
  | nil => exact Or.inr rfl
  | cons a as =>
    left
    rw [List.getLastD_eq_getLast?]
    cases hl : (a :: as).getLast? with
    | none => exact absurd hl (by simp)
    | some m =>
      have hm : m ∈ a :: as := List.mem_of_mem_getLast? hl
      simpa using hm

theorem headD_mem_or_default {α : Type} (l : List α) (d : α) :
    l.headD d ∈ l ∨ l.headD d = d := by
  cases l with
  | nil => exact Or.inr rfl
  | cons a as => exact Or.inl (by simp)

theorem buildEmailResultString_clean (ctx : AgentCtx) (extracted : PyVal)
    (hsafe : safeVal extracted) :
    '_' ∉ (buildEmailResultString ctx extracted).toList := by
  rw [buildEmailResultString]
  have hcomps : ∀ v ∈ ctx.action_results.enum.filterMap (fun p =>
      if Finalize.isComputationResult ctx.decision p.1 p.2 then
        match p.2.result with
        | some r => Finalize.parseToolResult r
        | none => none
      else none), safeVal v := by
    intro v hv
    obtain ⟨p, _, hpv⟩ := List.mem_filterMap.mp hv
    split at hpv
    · cases hres : p.2.result with
      | none =>
        rw [hres] at hpv
        exact Option.noConfusion hpv
      | some r =>
        rw [hres] at hpv
        exact parseToolResult_safe r v hpv
    · exact Option.noConfusion hpv
  split_ifs with h₁ h₂ h₃
  · rcases getLastD_mem_or_default (ctx.action_results.enum.filterMap _) PyVal.nonev with hm | hd
    · exact formatResultAsString_clean _ (Or.inl (hcomps _ hm))
    · rw [hd]
      exact formatResultAsString_clean _ (Or.inr rfl)
  · rw [String.toList]
    apply joinSep_no_underscore
    · decide
    · intro p hp
      obtain ⟨v, hv, rfl⟩ := List.mem_map.mp hp
      exact pyReprVal_clean v (hcomps v hv)
  · rcases headD_mem_or_default (ctx.action_results.enum.filterMap _) PyVal.nonev with hm | hd
    · exact formatResultAsString_clean _ (Or.inl (hcomps _ hm))
    · rw [hd]
      exact formatResultAsString_clean _ (Or.inr rfl)
  · exact formatResultAsString_clean _ (Or.inl hsafe)

theorem buildEmailContent_clean (ctx : AgentCtx) (rs : String)
    (hiq : '_' ∉ ctx.initial_query.toList) (hrs : '_' ∉ rs.toList) :
    '_' ∉ (buildEmailContent ctx rs).toList := by
  rw [buildEmailContent]
  have heq40 : '_' ∉ (String.mk (List.replicate 40 '=')).toList := by
    intro hmem
    rw [String.toList] at hmem
    have := List.eq_of_mem_replicate hmem
    exact absurd this (by decide)
  have hparts : ∀ p ∈ (["AI Agent Result", String.mk (List.replicate 40 '='), ""] ++
      (if ctx.initial_query ≠ "" then ["Query: " ++ ctx.initial_query, ""] else []) ++
      ["Result: " ++ rs, "", String.mk (List.replicate 40 '='), "Computed by AI Agent"]),
      '_' ∉ p.toList := by
    intro p hp
    simp only [List.mem_append, List.mem_cons, List.not_mem_nil, or_false] at hp
    rcases hp with ((rfl | rfl | rfl) | hq) | (rfl | rfl | rfl | rfl)
    · decide
    · exact heq40
    · decide
    · by_cases hne : ctx.initial_query ≠ ""
      · rw [if_pos hne] at hq
        simp only [List.mem_cons, List.not_mem_nil, or_false] at hq
        rcases hq with rfl | rfl
        · intro hmem
          rcases List.mem_append.mp hmem with h₁ | h₂
          · exact absurd h₁ (by decide)
          · exact hiq h₂
        · decide
      · rw [if_neg hne] at hq
        exact absurd hq (List.not_mem_nil p)
    · intro hmem
      rcases List.mem_append.mp hmem with h₁ | h₂
      · exact absurd h₁ (by decide)
      · exact hrs h₂
    · decide
    · exact heq40
    · decide
  rw [String.toList]
  by_cases hne : ctx.initial_query ≠ ""
  · rw [if_pos hne]
    apply joinSep_no_underscore
    · decide
    · intro p hp
      apply hparts
      have h2 := hp
      simp only [List.append_assoc, List.cons_append, List.nil_append] at h2 ⊢
      simp only [if_pos hne]
      simpa using h2
  · rw [if_neg hne]
    apply joinSep_no_underscore
    · decide
    · intro p hp
      apply hparts
      simp only [if_neg hne]
      simp only [List.append_assoc, List.cons_append, List.nil_append] at hp ⊢
      simpa using hp

end Resolve

namespace Resolve

open Py

theorem lookup_mem {β : Type} (l : List (Nat × β)) (n : Nat) (v : β)
    (h : l.lookup n = some v) : (n, v) ∈ l := by
  induction l with
  | nil => simp [List.lookup] at h
  | cons p rest ih =>
    rcases p with ⟨k, w⟩
    rw [List.lookup] at h
    cases hnk : (n == k) with
    | true =>
      rw [hnk] at h
      obtain rfl := Option.some_inj.mp h
      have hk : n = k := by simpa using hnk
      rw [hk]
      exact List.mem_cons_self _ _
    | false =>
      rw [hnk] at h
      exact List.mem_cons_of_mem _ (ih h)

theorem replaceRec_str (ctx : AgentCtx) (map : List (Nat × PyVal)) (s : String)
    (pn : Option String) :
    replaceRec ctx map (.str s) pn = replacePlaceholder ctx map (.str s) pn := rfl

theorem replaceRec_intv (ctx : AgentCtx) (map : List (Nat × PyVal)) (n : Int)
    (pn : Option String) : replaceRec ctx map (.intv n) pn = .intv n := rfl

theorem replaceRec_float (ctx : AgentCtx) (map : List (Nat × PyVal)) (q : ℚ)
    (pn : Option String) : replaceRec ctx map (.float q) pn = .float q := rfl

theorem replaceRec_boolv (ctx : AgentCtx) (map : List (Nat × PyVal)) (b : Bool)
    (pn : Option String) : replaceRec ctx map (.boolv b) pn = .boolv b := rfl

theorem replaceRec_nonev (ctx : AgentCtx) (map : List (Nat × PyVal))
    (pn : Option String) : replaceRec ctx map .nonev pn = .nonev := rfl

theorem replaceRec_dict (ctx : AgentCtx) (map : List (Nat × PyVal)) (fs : PyFields)
    (pn : Option String) :
    replaceRec ctx map (.dict fs) pn = .dict (replaceRecFields ctx map fs) := rfl

theorem replaceRec_list (ctx : AgentCtx) (map : List (Nat × PyVal)) (items : PyItems)
    (pn : Option String) :
    replaceRec ctx map (.list items) pn = .list (replaceRecItems ctx map items) := rfl

theorem replaceRecFields_cons (ctx : AgentCtx) (map : List (Nat × PyVal))
    (k : String) (v : PyVal) (rest : PyFields) :
    replaceRecFields ctx map (.cons k v rest) =
      .cons k (replaceRec ctx map v (some k)) (replaceRecFields ctx map rest) := rfl

theorem replaceRecItems_cons (ctx : AgentCtx) (map : List (Nat × PyVal))
    (v : PyVal) (rest : PyItems) :
    replaceRecItems ctx map (.cons v rest) =
      .cons (replaceRec ctx map v none) (replaceRecItems ctx map rest) := rfl

theorem replacePlaceholder_str (ctx : AgentCtx) (map : List (Nat × PyVal))
    (s : String) (pn : Option String) :
    replacePlaceholder ctx map (.str s) pn =
      (match PyStr.findStepTokenStr s with
       | none => .str s
       | some n =>
         match map.lookup n with
         | none => .str s
         | some result =>
           match extractValueFromResult result with
           | none => result
           | some extracted =>
             if (match pn with
                 | some p => !(p = "") && freeTextNames.contains (PyStr.lower p)
                 | none => false : Bool) then
               .str (buildEmailContent ctx (buildEmailResultString ctx extracted))
             else extracted) := rfl

mutual

/-- A clean value is a fixed point of placeholder resolution. -/
theorem replaceRec_fix (ctx : AgentCtx) (map : List (Nat × PyVal)) :
    ∀ (v : PyVal), cleanVal v = true → ∀ pn, replaceRec ctx map v pn = v
  | .str s, h, pn => by
    have hcl : '_' ∉ s.toList := by simpa [cleanVal] using h
    rw [replaceRec_str, replacePlaceholder_str]
    simp only [PyStr.findStepTokenStr, findStepToken_none_of_clean s.toList hcl]
  | .intv n, _, pn => replaceRec_intv ctx map n pn
  | .float q, _, pn => replaceRec_float ctx map q pn
  | .boolv b, _, pn => replaceRec_boolv ctx map b pn
  | .nonev, _, pn => replaceRec_nonev ctx map pn
  | .dict fs, h, pn => by
    rw [replaceRec_dict, replaceRecFields_fix ctx map fs (by simpa [cleanVal] using h)]
  | .list items, h, pn => by
    rw [replaceRec_list, replaceRecItems_fix ctx map items (by simpa [cleanVal] using h)]

theorem replaceRecFields_fix (ctx : AgentCtx) (map : List (Nat × PyVal)) :
    ∀ (fs : PyFields), cleanFields fs = true → replaceRecFields ctx map fs = fs
  | .nil, _ => rfl
  | .cons k v rest, h => by
    have h12 : cleanVal v = true ∧ cleanFields rest = true := by
      simpa [cleanFields, Bool.and_eq_true] using h
    rw [replaceRecFields_cons, replaceRec_fix ctx map v h12.1 (some k),
      replaceRecFields_fix ctx map rest h12.2]

theorem replaceRecItems_fix (ctx : AgentCtx) (map : List (Nat × PyVal)) :
    ∀ (items : PyItems), cleanItems items = true → replaceRecItems ctx map items = items
  | .nil, _ => rfl
  | .cons v rest, h => by
    have h12 : cleanVal v = true ∧ cleanItems rest = true := by
      simpa [cleanItems, Bool.and_eq_true] using h
    rw [replaceRecItems_cons, replaceRec_fix ctx map v h12.1 none,
      replaceRecItems_fix ctx map rest h12.2]

end

/-- A safely-shaped extracted value is a fixed point of resolution. -/
theorem replaceRec_safe_fix (ctx : AgentCtx) (map : List (Nat × PyVal))
    (e : PyVal) (hsafe : safeVal e) (pn : Option String) :
    replaceRec ctx map e pn = e := by
  cases e with
  | intv n => rfl
  | float q => rfl
  | boolv b => rfl
  | str s =>
    apply replaceRec_fix
    rcases hsafe with rfl | rfl <;> decide
  | nonev => exact absurd hsafe (by simp [safeVal])
  | dict fs => exact absurd hsafe (by simp [safeVal])
  | list items => exact absurd hsafe (by simp [safeVal])

/-- One application of `_replace_placeholder` produces a value which a
second application (under a results map and initial query satisfying the
cleanliness hypotheses) leaves untouched. -/
theorem replacePlaceholder_idem (ctx : AgentCtx) (map : List (Nat × PyVal))
    (Hmap : ∀ p ∈ map, cleanVal p.2 = true)
    (Hiq : '_' ∉ ctx.initial_query.toList)
    (s : String) (pn : Option String) :
    replaceRec ctx map (replacePlaceholder ctx map (.str s) pn) pn =
      replacePlaceholder ctx map (.str s) pn := by
  cases hsc : PyStr.findStepTokenStr s with
  | none =>
    have hw : replacePlaceholder ctx map (.str s) pn = .str s := by
      rw [replacePlaceholder_str, hsc]
    rw [hw, replaceRec_str, hw]
  | some n =>
    cases hlk : map.lookup n with
    | none =>
      have hw : replacePlaceholder ctx map (.str s) pn = .str s := by
        rw [replacePlaceholder_str, hsc]
        simp only [hlk]
      rw [hw, replaceRec_str, hw]
    | some result =>
      have hres_clean : cleanVal result = true :=
        Hmap (n, result) (lookup_mem map n result hlk)
      cases hext : extractValueFromResult result with
      | none =>
        have hw : replacePlaceholder ctx map (.str s) pn = result := by
          rw [replacePlaceholder_str, hsc]
          simp only [hlk, hext]
        rw [hw]
        exact replaceRec_fix ctx map result hres_clean pn
      | some e =>
        have hsafe : safeVal e := extractValueFromResult_safe result e hext
        cases hpn : (match pn with
            | some p => !(p = "") && freeTextNames.contains (PyStr.lower p)
            | none => false : Bool) with
        | false =>
          have hw : replacePlaceholder ctx map (.str s) pn = e := by
            rw [replacePlaceholder_str, hsc]
            simp only [hlk, hext]
            rw [if_neg (by rw [hpn]; exact Bool.false_ne_true)]
          rw [hw]
          exact replaceRec_safe_fix ctx map e hsafe pn
        | true =>
          have hw : replacePlaceholder ctx map (.str s) pn =
              .str (buildEmailContent ctx (buildEmailResultString ctx e)) := by
            rw [replacePlaceholder_str, hsc]
            simp only [hlk, hext]
            rw [if_pos (by rw [hpn])]
          have hclean : '_' ∉ (buildEmailContent ctx
              (buildEmailResultString ctx e)).toList :=
            buildEmailContent_clean ctx _ Hiq
              (buildEmailResultString_clean ctx e hsafe)
          have hsc2 : PyStr.findStepTokenStr
              (buildEmailContent ctx (buildEmailResultString ctx e)) = none := by
            rw [PyStr.findStepTokenStr]
            exact findStepToken_none_of_clean _ hclean
          have hw2 : replacePlaceholder ctx map
              (.str (buildEmailContent ctx (buildEmailResultString ctx e))) pn =
              .str (buildEmailContent ctx (buildEmailResultString ctx e)) := by
            rw [replacePlaceholder_str, hsc2]
          rw [hw, replaceRec_str, hw2]

end Resolve

namespace Resolve

open Py

mutual

theorem replaceRec_idem (ctx : AgentCtx) (map : List (Nat × PyVal))
    (Hmap : ∀ p ∈ map, cleanVal p.2 = true)
    (Hiq : '_' ∉ ctx.initial_query.toList) :
    ∀ (v : PyVal) (pn : Option String),
      replaceRec ctx map (replaceRec ctx map v pn) pn = replaceRec ctx map v pn
  | .str s, pn => by
    rw [replaceRec_str]
    exact replacePlaceholder_idem ctx map Hmap Hiq s pn
  | .intv n, pn => rfl
  | .float q, pn => rfl
  | .boolv b, pn => rfl
  | .nonev, pn => rfl
  | .dict fs, pn => by
    rw [replaceRec_dict, replaceRec_dict, replaceRecFields_idem ctx map Hmap Hiq fs]
  | .list items, pn => by
    rw [replaceRec_list, replaceRec_list, replaceRecItems_idem ctx map Hmap Hiq items]

theorem replaceRecFields_idem (ctx : AgentCtx) (map : List (Nat × PyVal))
    (Hmap : ∀ p ∈ map, cleanVal p.2 = true)
    (Hiq : '_' ∉ ctx.initial_query.toList) :
    ∀ (fs : PyFields),
      replaceRecFields ctx map (replaceRecFields ctx map fs) = replaceRecFields ctx map fs
  | .nil => rfl
  | .cons k v rest => by
    rw [replaceRecFields_cons, replaceRecFields_cons,
      replaceRec_idem ctx map Hmap Hiq v (some k),
      replaceRecFields_idem ctx map Hmap Hiq rest]

theorem replaceRecItems_idem (ctx : AgentCtx) (map : List (Nat × PyVal))
    (Hmap : ∀ p ∈ map, cleanVal p.2 = true)
    (Hiq : '_' ∉ ctx.initial_query.toList) :
    ∀ (items : PyItems),
      replaceRecItems ctx map (replaceRecItems ctx map items) = replaceRecItems ctx map items
  | .nil => rfl
  | .cons v rest => by
    rw [replaceRecItems_cons, replaceRecItems_cons,
      replaceRec_idem ctx map Hmap Hiq v none,
      replaceRecItems_idem ctx map Hmap Hiq rest]

end

/-- Claim C6 (amended): placeholder resolution is idempotent for every
parameters structure whenever no string stored in the results map and the
saved initial query contain an underscore (so no substituted text can
reintroduce a `RESULT_FROM_STEP_` token); without that restriction a raw
substituted result can itself contain a resolvable token and the second
pass resolves it (see the counterexample). -/
theorem replace_result_placeholders_idempotent (ctx : AgentCtx)
    (map : List (Nat × PyVal)) (params : PyFields)
    (Hmap : ∀ p ∈ map, cleanVal p.2 = true)
    (Hiq : '_' ∉ ctx.initial_query.toList) :
    replaceResultPlaceholders ctx map (replaceResultPlaceholders ctx map params) =
      replaceResultPlaceholders ctx map params :=
  replaceRecFields_idem ctx map Hmap Hiq params

/-- Witness for amended C6 at a concrete input: a step result
`"score 7 points"` and a parameter referring to it. -/
theorem replace_result_placeholders_idempotent_witness :
    replaceResultPlaceholders ctx0 [(1, PyVal.str "score 7 points")]
      (replaceResultPlaceholders ctx0 [(1, PyVal.str "score 7 points")] params0) =
      replaceResultPlaceholders ctx0 [(1, PyVal.str "score 7 points")] params0 :=
  replace_result_placeholders_idempotent ctx0 [(1, PyVal.str "score 7 points")] params0
    (by decide) (by decide)

end Resolve

/-! ## Section C1: the iteration-bounded cognitive loop
(`src/agent/ai_agent.py`, `_run_cognitive_loop` / `process_query` /
`_execute_perception_layer` / `_execute_decision_layer` /
`_execute_action_step`) -/

namespace Loop

/-- The `MAX_ITERATIONS` constant of `ai_agent.py`. -/
def MAX_ITERATIONS : Nat := 50

/-- The slice of `FallbackPerception` used by the loop's scope check. -/
structure CogFallback where
  is_uncertain : Bool
  suggested_clarification : Option String

/-- The slice of `PerceptionOutput` used by the loop. -/
structure CogPerception where
  intent : String
  fallback : Option CogFallback

/-- The slice of `ActionStep` relevant to iteration accounting. -/
structure LoopActionStep where
  step_number : Nat
  action_type : String

/-- The slice of `DecisionOutput` relevant to the loop. -/
structure LoopDecision where
  action_plan : List LoopActionStep
  should_continue : Bool

/-- The planning oracle as data: one perception (cached in the state after
the first call) and one decision per cognitive loop. -/
structure Env where
  perceiveResult : CogPerception
  decideResult : Nat → LoopDecision

/-- The slice of `CognitiveState` relevant to claim C1. -/
structure LoopState where
  iteration : Nat
  perception : Option CogPerception
  complete : Bool

/-- The externally visible work items of a request: each planning-oracle
call and each tool dispatch, stamped with the iteration counter as it
stood immediately before the call's increment. -/
inductive EvKind where
  | perceive
  | decide
  | toolDispatch
deriving DecidableEq

structure Ev where
  kind : EvKind
  iterBefore : Nat
deriving DecidableEq

/-- The scope check of `_run_cognitive_loop`: `intent == "out_of_scope"`,
or an uncertain fallback carrying a truthy clarification. -/
def outOfScope (p : CogPerception) : Bool :=
  p.intent = "out_of_scope" ||
    (match p.fallback with
     | some fb =>
       fb.is_uncertain &&
         (match fb.suggested_clarification with
          | some str => !(str = "")
          | none => false)
     | none => false)

/-- The fallback message (`suggested_clarification` when a fallback is
present, else the fixed apology). -/
def fallbackMessage (p : CogPerception) : Option String :=
  match p.fallback with
  | some fb => fb.suggested_clarification
  | none => some "I apologize, but this query is outside my mathematical capabilities. I can help with arithmetic, algebra, geometry, statistics, and logical reasoning."

/-- The `for action_step in decision.action_plan` loop of
`_run_cognitive_loop`: before every step the budget is checked (aborting
the remaining steps when exhausted); `_execute_action_step` counts an
iteration only for `tool_call` steps and always returns `None`. Returns
the state, the dispatch events, and whether the plan was aborted. -/
def execSteps : List LoopActionStep → LoopState → LoopState × List Ev × Bool
  | [], s => (s, [], false)
  | st :: rest, s =>
    if MAX_ITERATIONS ≤ s.iteration then (s, [], true)
    else if st.action_type = "tool_call" then
      let r := execSteps rest { s with iteration := s.iteration + 1 }
      (r.1, ⟨EvKind.toolDispatch, s.iteration⟩ :: r.2.1, r.2.2)
    else
      execSteps rest s

/-- `_run_cognitive_loop` after the perception stage: budget check, scope
check, decision (one iteration), budget check, then plan execution. Since
step execution always returns `None`, the loop stops exactly when the
plan was aborted on budget or the decision said not to continue. -/
def runLoopCore (env : Env) (loopIdx : Nat) (s₁ : LoopState) (p : CogPerception) :
    LoopState × List Ev × Bool × Option String :=
  if MAX_ITERATIONS ≤ s₁.iteration then (s₁, [], true, none)
  else if outOfScope p then (s₁, [], true, fallbackMessage p)
  else if MAX_ITERATIONS ≤ s₁.iteration + 1 then
    ({ s₁ with iteration := s₁.iteration + 1 }, [⟨EvKind.decide, s₁.iteration⟩], true, none)
  else
    let r := execSteps (env.decideResult loopIdx).action_plan
      { s₁ with iteration := s₁.iteration + 1 }
    (r.1, ⟨EvKind.decide, s₁.iteration⟩ :: r.2.1,
      r.2.2 || !(env.decideResult loopIdx).should_continue, none)

/-- Embedding of `_run_cognitive_loop`: the perception stage runs first
(cached in the state, one iteration when fresh), then the core. -/
def runLoop (env : Env) (loopIdx : Nat) (s : LoopState) :
    LoopState × List Ev × Bool × Option String :=
  match s.perception with
  | some p => runLoopCore env loopIdx s p
  | none =>
    let r := runLoopCore env loopIdx
      { s with iteration := s.iteration + 1, perception := some env.perceiveResult }
      env.perceiveResult
    (r.1, ⟨EvKind.perceive, s.iteration⟩ :: r.2.1, r.2.2)

/-- Embedding of the `while self.state.iteration < MAX_ITERATIONS` loop of
`process_query` (fuel-bounded; the claim below holds for every fuel). -/
def processAux (env : Env) : Nat → Nat → LoopState → LoopState × List Ev
  | 0, _, s => (s, [])
  | fuel + 1, loopIdx, s =>
    if MAX_ITERATIONS ≤ s.iteration then (s, [])
    else
      let r := runLoop env (loopIdx + 1) s
      if r.2.2.1 then ({ r.1 with complete := true }, r.2.1)
      else
        let r' := processAux env fuel (loopIdx + 1) r.1
        (r'.1, r.2.1 ++ r'.2)

/-- `process_query` starts from a fresh `CognitiveState`. -/
def processQuery (env : Env) (fuel : Nat) : LoopState × List Ev :=
  processAux env fuel 0 { iteration := 0, perception := none, complete := false }

/-- Trace invariant: event stamps are sorted, lie in the counter interval
of the enclosing phase, and stay strictly below the budget. -/
def EvChain (evs : List Ev) (lo hi : Nat) : Prop :=
  List.Sorted (· ≤ ·) (evs.map Ev.iterBefore) ∧
    ∀ e ∈ evs, lo ≤ e.iterBefore ∧ e.iterBefore < hi ∧ e.iterBefore < MAX_ITERATIONS

theorem evChain_nil (lo hi : Nat) : EvChain [] lo hi := by
  constructor
  · simp
  · intro e he
    simp at he

theorem evChain_singleton (k : EvKind) (lo hi : Nat)
    (h1 : lo < hi) (h2 : lo < MAX_ITERATIONS) :
    EvChain [⟨k, lo⟩] lo hi := by
  constructor
  · simp
  · intro e he
    rw [List.mem_singleton] at he
    subst he
    exact ⟨Nat.le_refl _, h1, h2⟩

theorem evChain_append (evs₁ evs₂ : List Ev) (lo mid hi : Nat)
    (h₁ : EvChain evs₁ lo mid) (h₂ : EvChain evs₂ mid hi)
    (hlm : lo ≤ mid) (hmh : mid ≤ hi) :
    EvChain (evs₁ ++ evs₂) lo hi := by
  constructor
  · rw [List.map_append, List.Sorted, List.pairwise_append]
    refine ⟨h₁.1, h₂.1, ?_⟩
    intro x hx y hy
    obtain ⟨ex, hex, rfl⟩ := List.mem_map.mp hx
    obtain ⟨ey, hey, rfl⟩ := List.mem_map.mp hy
    have hx' := (h₁.2 ex hex).2.1
    have hy' := (h₂.2 ey hey).1
    omega
  · intro e he
    rcases List.mem_append.mp he with h | h
    · have := h₁.2 e h
      exact ⟨by omega, by omega, this.2.2⟩
    · have := h₂.2 e h
      exact ⟨by omega, by omega, this.2.2⟩

theorem execSteps_spec (steps : List LoopActionStep) : ∀ (s : LoopState),
    s.iteration ≤ MAX_ITERATIONS →
    s.iteration ≤ (execSteps steps s).1.iteration ∧
    (execSteps steps s).1.iteration ≤ MAX_ITERATIONS ∧
    EvChain (execSteps steps s).2.1 s.iteration (execSteps steps s).1.iteration := by
  induction steps with
  | nil =>
    intro s h
    exact ⟨Nat.le_refl _, h, evChain_nil _ _⟩
  | cons st rest ih =>
    intro s h
    by_cases hg : MAX_ITERATIONS ≤ s.iteration
    · simp only [execSteps, if_pos hg]
      exact ⟨Nat.le_refl _, h, evChain_nil _ _⟩
    · have hlt : s.iteration < MAX_ITERATIONS := Nat.lt_of_not_le hg
      by_cases ht : st.action_type = "tool_call"
      · simp only [execSteps, if_neg hg, if_pos ht]
        obtain ⟨h1, h2, h3⟩ := ih { s with iteration := s.iteration + 1 } hlt
        refine ⟨Nat.le_trans (Nat.le_succ _) h1, h2, ?_⟩
        have hone := evChain_singleton EvKind.toolDispatch s.iteration (s.iteration + 1)
          (Nat.lt_succ_self _) hlt
        exact evChain_append _ _ _ _ _ hone h3 (Nat.le_succ _) h1
      · simp only [execSteps, if_neg hg, if_neg ht]
        exact ih s h

theorem runLoopCore_spec (env : Env) (loopIdx : Nat) (s₁ : LoopState) (p : CogPerception)
    (h : s₁.iteration ≤ MAX_ITERATIONS) :
    s₁.iteration ≤ (runLoopCore env loopIdx s₁ p).1.iteration ∧
    (runLoopCore env loopIdx s₁ p).1.iteration ≤ MAX_ITERATIONS ∧
    EvChain (runLoopCore env loopIdx s₁ p).2.1 s₁.iteration
      (runLoopCore env loopIdx s₁ p).1.iteration := by
  by_cases hg : MAX_ITERATIONS ≤ s₁.iteration
  · simp only [runLoopCore, if_pos hg]
    exact ⟨Nat.le_refl _, h, evChain_nil _ _⟩
  · have hlt : s₁.iteration < MAX_ITERATIONS := Nat.lt_of_not_le hg
    by_cases hsc : outOfScope p = true
    · simp only [runLoopCore, if_neg hg, if_pos hsc]
      exact ⟨Nat.le_refl _, h, evChain_nil _ _⟩
    · by_cases hg2 : MAX_ITERATIONS ≤ s₁.iteration + 1
      · simp only [runLoopCore, if_neg hg, if_neg hsc, if_pos hg2]
        exact ⟨Nat.le_succ _, hlt,
          evChain_singleton EvKind.decide s₁.iteration (s₁.iteration + 1)
            (Nat.lt_succ_self _) hlt⟩
      · simp only [runLoopCore, if_neg hg, if_neg hsc, if_neg hg2]
        obtain ⟨h1, h2, h3⟩ := execSteps_spec (env.decideResult loopIdx).action_plan
          { s₁ with iteration := s₁.iteration + 1 }
          (Nat.le_of_lt (Nat.lt_of_not_le hg2))
        refine ⟨Nat.le_trans (Nat.le_succ _) h1, h2, ?_⟩
        have hone := evChain_singleton EvKind.decide s₁.iteration (s₁.iteration + 1)
          (Nat.lt_succ_self _) hlt
        exact evChain_append _ _ _ _ _ hone h3 (Nat.le_succ _) h1

theorem runLoop_spec (env : Env) (loopIdx : Nat) (s : LoopState)
    (hlt : s.iteration < MAX_ITERATIONS) :
    s.iteration ≤ (runLoop env loopIdx s).1.iteration ∧
    (runLoop env loopIdx s).1.iteration ≤ MAX_ITERATIONS ∧
    EvChain (runLoop env loopIdx s).2.1 s.iteration (runLoop env loopIdx s).1.iteration := by
  cases hp : s.perception with
  | some p =>
    simp only [runLoop, hp]
    exact runLoopCore_spec env loopIdx s p (Nat.le_of_lt hlt)
  | none =>
    simp only [runLoop, hp]
    obtain ⟨h1, h2, h3⟩ := runLoopCore_spec env loopIdx
      { s with iteration := s.iteration + 1, perception := some env.perceiveResult }
      env.perceiveResult hlt
    refine ⟨Nat.le_trans (Nat.le_succ _) h1, h2, ?_⟩
    have hone := evChain_singleton EvKind.perceive s.iteration (s.iteration + 1)
      (Nat.lt_succ_self _) hlt
    exact evChain_append _ _ _ _ _ hone h3 (Nat.le_succ _) h1

theorem processAux_spec (env : Env) : ∀ (fuel loopIdx : Nat) (s : LoopState),
    s.iteration ≤ MAX_ITERATIONS →
    s.iteration ≤ (processAux env fuel loopIdx s).1.iteration ∧
    (processAux env fuel loopIdx s).1.iteration ≤ MAX_ITERATIONS ∧
    EvChain (processAux env fuel loopIdx s).2 s.iteration
      (processAux env fuel loopIdx s).1.iteration := by
  intro fuel
  induction fuel with
  | zero =>
    intro loopIdx s h
    exact ⟨Nat.le_refl _, h, evChain_nil _ _⟩
  | succ fuel ih =>
    intro loopIdx s h
    by_cases hg : MAX_ITERATIONS ≤ s.iteration
    · simp only [processAux, if_pos hg]
      exact ⟨Nat.le_refl _, h, evChain_nil _ _⟩
    · have hlt := Nat.lt_of_not_le hg
      obtain ⟨h1, h2, h3⟩ := runLoop_spec env (loopIdx + 1) s hlt
      by_cases hstop : (runLoop env (loopIdx + 1) s).2.2.1 = true
      · simp only [processAux, if_neg hg, if_pos hstop]
        exact ⟨h1, h2, h3⟩
      · simp only [processAux, if_neg hg, if_neg hstop]
        obtain ⟨h1p, h2p, h3p⟩ := ih (loopIdx + 1) (runLoop env (loopIdx + 1) s).1 h2
        exact ⟨Nat.le_trans h1 h1p, h2p, evChain_append _ _ _ _ _ h3 h3p h1 h1p⟩

/-- **C1.** For every planning-oracle environment and every fuel bound on
the outer `while` loop, `process_query` ends with an iteration counter of
at most `MAX_ITERATIONS` (50); the counter values stamped on the
successive perception calls, decision calls and tool dispatches form a
monotonically non-decreasing sequence; and every such call executes from
a counter value strictly below the maximum, so once the counter has
reached 50 no further oracle call or tool dispatch runs. -/
theorem process_query_iteration_budget (env : Env) (fuel : Nat) :
    (processQuery env fuel).1.iteration ≤ MAX_ITERATIONS ∧
    List.Sorted (fun a b => a ≤ b) ((processQuery env fuel).2.map Ev.iterBefore) ∧
    ∀ e ∈ (processQuery env fuel).2, e.iterBefore < MAX_ITERATIONS := by
  obtain ⟨h1, h2, h3⟩ := processAux_spec env fuel 0
    { iteration := 0, perception := none, complete := false } (Nat.zero_le _)
  exact ⟨h2, h3.1, fun e he => (h3.2 e he).2.2⟩

/-- A concrete environment exercising all three event kinds. -/
def envW : Env :=
  { perceiveResult := { intent := "mathematical", fallback := none },
    decideResult := fun _ =>
      { action_plan := [⟨1, "tool_call"⟩, ⟨2, "response"⟩], should_continue := false } }

theorem process_query_iteration_budget_witness :
    (⟨EvKind.toolDispatch, 2⟩ : Ev) ∈ (processQuery envW 1).2 ∧
    (⟨EvKind.toolDispatch, 2⟩ : Ev).iterBefore < MAX_ITERATIONS :=
  ⟨by decide, (process_query_iteration_budget envW 1).2.2 ⟨EvKind.toolDispatch, 2⟩ (by decide)⟩

end Loop

/-! ## Section C8: duplicate start-indexing requests
(`src/server.py`, `index_youtube` / `index_video_async`) -/

namespace Ingest

/-- Update an association list in place (first binding wins), appending
when the key is absent — the effect of `indexing_status[video_id] = ...`. -/
def statusSet (m : List (String × String)) (k v : String) : List (String × String) :=
  match m with
  | [] => [(k, v)]
  | (k₀, v₀) :: rest =>
    if k₀ = k then (k₀, v) :: rest else (k₀, v₀) :: statusSet rest k v

/-- The server state touched by `/api/index_youtube`: the video ids of
`memory_layer.youtube_metadata`, the `indexing_status` map, plus job
accounting — `pending` holds spawned `index_video_async` threads that
have not yet performed their initial locked status write, `running`
holds those that have. -/
structure SrvState where
  youtube_metadata : List String
  indexing_status : List (String × String)
  pending : List String
  running : List String
deriving DecidableEq

inductive Resp where
  | already_indexed
  | in_progress (status : String)
  | started_new
deriving DecidableEq

/-- The `index_youtube` handler for a resolved video id: already-indexed
check against the metadata, then the locked `indexing_status` check
(only the statuses `started` and `in_progress` short-circuit), else a
background thread is spawned. The handler itself records nothing in
`indexing_status`; the spawned thread does that when it first runs. The
whole handler is one atomic step here — coarser than the real locking,
which only favours the claim. -/
def handleRequest (s : SrvState) (v : String) : SrvState × Resp :=
  if s.youtube_metadata.contains v then (s, Resp.already_indexed)
  else
    match s.indexing_status.lookup v with
    | some st =>
      if st = "started" || st = "in_progress" then (s, Resp.in_progress st)
      else ({ s with pending := s.pending ++ [v] }, Resp.started_new)
    | none => ({ s with pending := s.pending ++ [v] }, Resp.started_new)

/-- A spawned `index_video_async` thread begins: its first action is the
locked write `indexing_status[video_id] = {'status': 'started', ...}`. -/
def jobBegin (s : SrvState) (v : String) : SrvState :=
  if s.pending.contains v then
    { s with pending := s.pending.erase v,
             running := s.running ++ [v],
             indexing_status := statusSet s.indexing_status v "started" }
  else s

inductive Act where
  | request (v : String)
  | jobBegin (v : String)

/-- An interleaving of handler invocations and job start-ups. -/
def runActs : SrvState → List Act → SrvState
  | s, [] => s
  | s, Act.request v :: rest => runActs (handleRequest s v).1 rest
  | s, Act.jobBegin v :: rest => runActs (jobBegin s v) rest

/-- The ingest jobs alive for one video id: spawned-but-not-begun plus
begun. -/
def activeJobs (s : SrvState) (v : String) : Nat :=
  s.pending.count v + s.running.count v

def initState : SrvState := ⟨[], [], [], []⟩

/-- **C8.** A start-indexing request for a video id that is not yet
indexed but whose recorded `indexing_status` is `started` or
`in_progress` is a no-op: the handler leaves the server state unchanged
(in particular it spawns no job) and returns the existing status. -/
theorem duplicate_request_noop (s : SrvState) (v st : String)
    (hnm : s.youtube_metadata.contains v = false)
    (hst : s.indexing_status.lookup v = some st)
    (hs : st = "started" ∨ st = "in_progress") :
    (handleRequest s v).1 = s ∧ (handleRequest s v).2 = Resp.in_progress st := by
  have hb : (st = "started" || st = "in_progress") = true := by
    rcases hs with h | h <;> subst h <;> simp
  have hnm2 : v ∉ s.youtube_metadata := by
    simpa using hnm
  simp [handleRequest, hnm2, hst, hb]

theorem duplicate_request_noop_witness :
    (⟨[], [("dQw4w9WgXcQ", "in_progress")], ["dQw4w9WgXcQ"], []⟩ :
      SrvState).youtube_metadata.contains "dQw4w9WgXcQ" = false ∧
    (handleRequest ⟨[], [("dQw4w9WgXcQ", "in_progress")], ["dQw4w9WgXcQ"], []⟩
      "dQw4w9WgXcQ").1 = ⟨[], [("dQw4w9WgXcQ", "in_progress")], ["dQw4w9WgXcQ"], []⟩ :=
  ⟨by decide,
    (duplicate_request_noop ⟨[], [("dQw4w9WgXcQ", "in_progress")], ["dQw4w9WgXcQ"], []⟩
      "dQw4w9WgXcQ" "in_progress" (by decide) (by decide) (Or.inr rfl)).1⟩

/-- Two requests for the same fresh video id that both run before the
first spawned thread performs its initial status write each pass the
status check (the map holds no entry yet) and each spawn a job: two
active ingest jobs exist for one identity, refuting the at-most-one-job
half of the claim. -/
theorem duplicate_spawn_counterexample :
    activeJobs (runActs initState
      [Act.request "dQw4w9WgXcQ", Act.request "dQw4w9WgXcQ"]) "dQw4w9WgXcQ" = 2 ∧
    (runActs initState
      [Act.request "dQw4w9WgXcQ", Act.request "dQw4w9WgXcQ"]).indexing_status = [] := by
  refine ⟨by decide, by decide⟩

end Ingest

/-! ## Section C9: placeholder resolution does not mutate its inputs
(`src/agent/ai_agent.py`, `_replace_result_placeholders`)

A small Python heap: scalars and strings are immutable primitives,
dicts and lists are heap cells addressed by index. The results map holds
step-result strings (`ActionResult.result` is a string), so only the
parameters structure lives in the heap. The embedded code performs only
heap reads and fresh allocations at the end of the heap, mirroring the
source, which builds every dict and list with a fresh comprehension and
runs on `copy.deepcopy(params)`. -/

namespace HeapFrame

open Py Resolve

inductive HVal where
  | str (s : String)
  | intv (n : Int)
  | float (q : ℚ)
  | boolv (b : Bool)
  | nonev
  | addr (a : Nat)
deriving DecidableEq

inductive HObj where
  | dictObj (fields : List (String × HVal))
  | listObj (items : List HVal)
deriving DecidableEq

abbrev Heap := List HObj

def hlen (h : Heap) : Nat := List.length h

def hget (h : Heap) (a : Nat) : Option HObj := List.get? h a

/-- A value whose address (if any) points into the first `n` cells. -/
def closedVal (n : Nat) : HVal → Bool
  | HVal.addr a => decide (a < n)
  | _ => true

def closedObj (n : Nat) : HObj → Bool
  | HObj.dictObj fs => fs.all (fun p => closedVal n p.2)
  | HObj.listObj its => its.all (closedVal n)

/-- Every cell's member addresses point into the heap. -/
def closedHeap (h : Heap) : Bool := List.all h (closedObj (hlen h))

/-- A value that is a primitive or an address at or past `n` — a freshly
built structure relative to a heap of length `n`. -/
def freshVal (n : Nat) : HVal → Prop
  | HVal.addr a => n ≤ a
  | _ => True

mutual

/-- Allocate a pure value tree as fresh heap objects (what returning a
parsed/extracted structure amounts to). -/
def allocPyVal : Heap → PyVal → Heap × HVal
  | h, PyVal.str s => (h, HVal.str s)
  | h, PyVal.intv n => (h, HVal.intv n)
  | h, PyVal.float q => (h, HVal.float q)
  | h, PyVal.boolv b => (h, HVal.boolv b)
  | h, PyVal.nonev => (h, HVal.nonev)
  | h, PyVal.dict fs =>
    let r := allocPyFields h fs
    (r.1 ++ [HObj.dictObj r.2], HVal.addr (hlen r.1))
  | h, PyVal.list its =>
    let r := allocPyItems h its
    (r.1 ++ [HObj.listObj r.2], HVal.addr (hlen r.1))

def allocPyFields : Heap → PyFields → Heap × List (String × HVal)
  | h, PyFields.nil => (h, [])
  | h, PyFields.cons k v rest =>
    let r := allocPyVal h v
    let r₂ := allocPyFields r.1 rest
    (r₂.1, (k, r.2) :: r₂.2)

def allocPyItems : Heap → PyItems → Heap × List HVal
  | h, PyItems.nil => (h, [])
  | h, PyItems.cons v rest =>
    let r := allocPyVal h v
    let r₂ := allocPyItems r.1 rest
    (r₂.1, r.2 :: r₂.2)

end

/-- Thread a per-value transformer through a dict's fields. -/
def copyFields (cv : Heap → HVal → Option (Heap × HVal)) :
    Heap → List (String × HVal) → Option (Heap × List (String × HVal))
  | h, [] => some (h, [])
  | h, (k, v) :: rest =>
    match cv h v with
    | some (h₂, v₂) =>
      (match copyFields cv h₂ rest with
       | some (h₃, rest₂) => some (h₃, (k, v₂) :: rest₂)
       | none => none)
    | none => none

/-- Thread a per-value transformer through a list's items. -/
def copyItems (cv : Heap → HVal → Option (Heap × HVal)) :
    Heap → List HVal → Option (Heap × List HVal)
  | h, [] => some (h, [])
  | h, v :: rest =>
    match cv h v with
    | some (h₂, v₂) =>
      (match copyItems cv h₂ rest with
       | some (h₃, rest₂) => some (h₃, v₂ :: rest₂)
       | none => none)
    | none => none

/-- `copy.deepcopy`: primitives are shared, every container is rebuilt as
a fresh cell (the memo table for shared subobjects is not modelled; it
only affects sharing inside the copy, not the frame property). -/
def deepcopyH : Nat → Heap → HVal → Option (Heap × HVal)
  | 0, _, _ => none
  | fuel + 1, h, v =>
    match v with
    | HVal.addr a =>
      (match hget h a with
       | some (HObj.dictObj fs) =>
         (match copyFields (deepcopyH fuel) h fs with
          | some (h₂, fs₂) => some (h₂ ++ [HObj.dictObj fs₂], HVal.addr (hlen h₂))
          | none => none)
       | some (HObj.listObj its) =>
         (match copyItems (deepcopyH fuel) h its with
          | some (h₂, its₂) => some (h₂ ++ [HObj.listObj its₂], HVal.addr (hlen h₂))
          | none => none)
       | none => none)
    | pv => some (h, pv)

/-- The results map as seen by the pure `_replace_placeholder` model. -/
def toPureMap (rmap : List (Nat × String)) : List (Nat × PyVal) :=
  rmap.map (fun p => (p.1, PyVal.str p.2))

/-- Thread the string-replacer through dict fields, passing each key as
the parameter name (`{k: replace_recursive(v, k) for k, v in ...}`). -/
def replFields (rv : Heap → HVal → Option String → Option (Heap × HVal)) :
    Heap → List (String × HVal) → Option (Heap × List (String × HVal))
  | h, [] => some (h, [])
  | h, (k, v) :: rest =>
    match rv h v (some k) with
    | some (h₂, v₂) =>
      (match replFields rv h₂ rest with
       | some (h₃, rest₂) => some (h₃, (k, v₂) :: rest₂)
       | none => none)
    | none => none

/-- Thread the replacer through list items with no parameter name. -/
def replItems (rv : Heap → HVal → Option String → Option (Heap × HVal)) :
    Heap → List HVal → Option (Heap × List HVal)
  | h, [] => some (h, [])
  | h, v :: rest =>
    match rv h v none with
    | some (h₂, v₂) =>
      (match replItems rv h₂ rest with
       | some (h₃, rest₂) => some (h₃, v₂ :: rest₂)
       | none => none)
    | none => none

/-- The `replace_recursive` closure over the heap: strings go through the
pure `_replace_placeholder` and the outcome (a fresh parse/extraction
product or an immutable string) is allocated as fresh cells; dicts and
lists are rebuilt as fresh cells from recursively processed members;
other primitives pass through. Only reads and end-of-heap allocations
occur. -/
def replaceRecH (ctx : AgentCtx) (rmap : List (Nat × String)) :
    Nat → Heap → HVal → Option String → Option (Heap × HVal)
  | 0, _, _, _ => none
  | fuel + 1, h, v, pn =>
    match v with
    | HVal.str s =>
      some (allocPyVal h (Resolve.replacePlaceholder ctx (toPureMap rmap) (PyVal.str s) pn))
    | HVal.addr a =>
      (match hget h a with
       | some (HObj.dictObj fs) =>
         (match replFields (replaceRecH ctx rmap fuel) h fs with
          | some (h₂, fs₂) => some (h₂ ++ [HObj.dictObj fs₂], HVal.addr (hlen h₂))
          | none => none)
       | some (HObj.listObj its) =>
         (match replItems (replaceRecH ctx rmap fuel) h its with
          | some (h₂, its₂) => some (h₂ ++ [HObj.listObj its₂], HVal.addr (hlen h₂))
          | none => none)
       | none => none)
    | pv => some (h, pv)

/-- `_replace_result_placeholders`: deep-copy the parameters structure,
then run `replace_recursive` on the copy. -/
def replaceResultPlaceholdersH (ctx : AgentCtx) (rmap : List (Nat × String))
    (fuel : Nat) (h : Heap) (paramsAddr : Nat) : Option (Heap × HVal) :=
  match deepcopyH fuel h (HVal.addr paramsAddr) with
  | some (h₂, v₂) => replaceRecH ctx rmap fuel h₂ v₂ none
  | none => none

/-- Dereference a heap value back to a pure tree (the observation used to
state that existing structures are unchanged). -/
def readFields (rv : Heap → HVal → Option PyVal) :
    Heap → List (String × HVal) → Option PyFields
  | _, [] => some PyFields.nil
  | h, (k, v) :: rest =>
    match rv h v, readFields rv h rest with
    | some pv, some pf => some (PyFields.cons k pv pf)
    | _, _ => none

def readItems (rv : Heap → HVal → Option PyVal) :
    Heap → List HVal → Option PyItems
  | _, [] => some PyItems.nil
  | h, v :: rest =>
    match rv h v, readItems rv h rest with
    | some pv, some pi => some (PyItems.cons pv pi)
    | _, _ => none

def readValueH : Nat → Heap → HVal → Option PyVal
  | 0, _, _ => none
  | fuel + 1, h, v =>
    match v with
    | HVal.str s => some (PyVal.str s)
    | HVal.intv n => some (PyVal.intv n)
    | HVal.float q => some (PyVal.float q)
    | HVal.boolv b => some (PyVal.boolv b)
    | HVal.nonev => some PyVal.nonev
    | HVal.addr a =>
      match hget h a with
      | some (HObj.dictObj fs) =>
        (match readFields (readValueH fuel) h fs with
         | some pf => some (PyVal.dict pf)
         | none => none)
      | some (HObj.listObj its) =>
        (match readItems (readValueH fuel) h its with
         | some pi => some (PyVal.list pi)
         | none => none)
      | none => none

end HeapFrame

namespace HeapFrame

open Py Resolve

theorem hget_append (h extra : Heap) (a : Nat) (ha : a < hlen h) :
    hget (h ++ extra) a = hget h a :=
  List.get?_append ha

theorem hget_mem (h : Heap) (a : Nat) (o : HObj) (hg : hget h a = some o) : o ∈ h :=
  List.get?_mem hg

theorem freshVal_mono (m n : Nat) (hmn : m ≤ n) (v : HVal) (h : freshVal n v) :
    freshVal m v := by
  cases v
  case addr a => exact Nat.le_trans hmn h
  all_goals trivial

mutual

/-- Allocating a pure tree only appends to the heap, and the returned
value is fresh. -/
theorem allocPyVal_ext : ∀ (h : Heap) (v : PyVal),
    (∃ extra, (allocPyVal h v).1 = h ++ extra) ∧ freshVal (hlen h) (allocPyVal h v).2
  | h, PyVal.str s => ⟨⟨[], by simp [allocPyVal]⟩, trivial⟩
  | h, PyVal.intv n => ⟨⟨[], by simp [allocPyVal]⟩, trivial⟩
  | h, PyVal.float q => ⟨⟨[], by simp [allocPyVal]⟩, trivial⟩
  | h, PyVal.boolv b => ⟨⟨[], by simp [allocPyVal]⟩, trivial⟩
  | h, PyVal.nonev => ⟨⟨[], by simp [allocPyVal]⟩, trivial⟩
  | h, PyVal.dict fs => by
    obtain ⟨e₁, he₁⟩ := allocPyFields_ext h fs
    constructor
    · refine ⟨e₁ ++ [HObj.dictObj (allocPyFields h fs).2], ?_⟩
      show (allocPyFields h fs).1 ++ [HObj.dictObj (allocPyFields h fs).2] = _
      rw [he₁, List.append_assoc]
    · show hlen h ≤ hlen (allocPyFields h fs).1
      rw [he₁]
      simp [hlen]
  | h, PyVal.list its => by
    obtain ⟨e₁, he₁⟩ := allocPyItems_ext h its
    constructor
    · refine ⟨e₁ ++ [HObj.listObj (allocPyItems h its).2], ?_⟩
      show (allocPyItems h its).1 ++ [HObj.listObj (allocPyItems h its).2] = _
      rw [he₁, List.append_assoc]
    · show hlen h ≤ hlen (allocPyItems h its).1
      rw [he₁]
      simp [hlen]

theorem allocPyFields_ext : ∀ (h : Heap) (fs : PyFields),
    ∃ extra, (allocPyFields h fs).1 = h ++ extra
  | h, PyFields.nil => ⟨[], by simp [allocPyFields]⟩
  | h, PyFields.cons k v rest => by
    obtain ⟨⟨e₁, he₁⟩, _⟩ := allocPyVal_ext h v
    obtain ⟨e₂, he₂⟩ := allocPyFields_ext (allocPyVal h v).1 rest
    refine ⟨e₁ ++ e₂, ?_⟩
    show (allocPyFields (allocPyVal h v).1 rest).1 = _
    rw [he₂, he₁, List.append_assoc]

theorem allocPyItems_ext : ∀ (h : Heap) (its : PyItems),
    ∃ extra, (allocPyItems h its).1 = h ++ extra
  | h, PyItems.nil => ⟨[], by simp [allocPyItems]⟩
  | h, PyItems.cons v rest => by
    obtain ⟨⟨e₁, he₁⟩, _⟩ := allocPyVal_ext h v
    obtain ⟨e₂, he₂⟩ := allocPyItems_ext (allocPyVal h v).1 rest
    refine ⟨e₁ ++ e₂, ?_⟩
    show (allocPyItems (allocPyVal h v).1 rest).1 = _
    rw [he₂, he₁, List.append_assoc]

end

/-- A field fold over an extension-only transformer only extends the
heap. -/
theorem copyFields_ext (cv : Heap → HVal → Option (Heap × HVal))
    (hcv : ∀ h v r, cv h v = some r → ∃ extra, r.1 = h ++ extra) :
    ∀ (fs : List (String × HVal)) (h : Heap) (r : Heap × List (String × HVal)),
      copyFields cv h fs = some r → ∃ extra, r.1 = h ++ extra := by
  intro fs
  induction fs with
  | nil =>
    intro h r hr
    simp only [copyFields] at hr
    obtain rfl := Option.some.inj hr
    exact ⟨[], by simp⟩
  | cons p rest ih =>
    intro h r hr
    obtain ⟨k, v⟩ := p
    simp only [copyFields] at hr
    cases h1 : cv h v with
    | none => rw [h1] at hr; exact Option.noConfusion hr
    | some r₂ =>
      obtain ⟨h₂, v₂⟩ := r₂
      simp only [h1] at hr
      cases h2 : copyFields cv h₂ rest with
      | none => rw [h2] at hr; exact Option.noConfusion hr
      | some r₃ =>
        obtain ⟨h₃, rest₂⟩ := r₃
        simp only [h2] at hr
        obtain rfl := Option.some.inj hr
        obtain ⟨e₁, he₁⟩ := hcv h v (h₂, v₂) h1
        obtain ⟨e₂, he₂⟩ := ih h₂ (h₃, rest₂) h2
        have he₁h : h₂ = h ++ e₁ := he₁
        have he₂h : h₃ = h₂ ++ e₂ := he₂
        refine ⟨e₁ ++ e₂, ?_⟩
        show h₃ = _
        rw [he₂h, he₁h, List.append_assoc]

/-- Item-fold analogue of `copyFields_ext`. -/
theorem copyItems_ext (cv : Heap → HVal → Option (Heap × HVal))
    (hcv : ∀ h v r, cv h v = some r → ∃ extra, r.1 = h ++ extra) :
    ∀ (its : List HVal) (h : Heap) (r : Heap × List HVal),
      copyItems cv h its = some r → ∃ extra, r.1 = h ++ extra := by
  intro its
  induction its with
  | nil =>
    intro h r hr
    simp only [copyItems] at hr
    obtain rfl := Option.some.inj hr
    exact ⟨[], by simp⟩
  | cons v rest ih =>
    intro h r hr
    simp only [copyItems] at hr
    cases h1 : cv h v with
    | none => rw [h1] at hr; exact Option.noConfusion hr
    | some r₂ =>
      obtain ⟨h₂, v₂⟩ := r₂
      simp only [h1] at hr
      cases h2 : copyItems cv h₂ rest with
      | none => rw [h2] at hr; exact Option.noConfusion hr
      | some r₃ =>
        obtain ⟨h₃, rest₂⟩ := r₃
        simp only [h2] at hr
        obtain rfl := Option.some.inj hr
        obtain ⟨e₁, he₁⟩ := hcv h v (h₂, v₂) h1
        obtain ⟨e₂, he₂⟩ := ih h₂ (h₃, rest₂) h2
        have he₁h : h₂ = h ++ e₁ := he₁
        have he₂h : h₃ = h₂ ++ e₂ := he₂
        refine ⟨e₁ ++ e₂, ?_⟩
        show h₃ = _
        rw [he₂h, he₁h, List.append_assoc]

/-- Keyed-field analogue for the replacement pass. -/
theorem replFields_ext (rv : Heap → HVal → Option String → Option (Heap × HVal))
    (hrv : ∀ h v pn r, rv h v pn = some r → ∃ extra, r.1 = h ++ extra) :
    ∀ (fs : List (String × HVal)) (h : Heap) (r : Heap × List (String × HVal)),
      replFields rv h fs = some r → ∃ extra, r.1 = h ++ extra := by
  intro fs
  induction fs with
  | nil =>
    intro h r hr
    simp only [replFields] at hr
    obtain rfl := Option.some.inj hr
    exact ⟨[], by simp⟩
  | cons p rest ih =>
    intro h r hr
    obtain ⟨k, v⟩ := p
    simp only [replFields] at hr
    cases h1 : rv h v (some k) with
    | none => rw [h1] at hr; exact Option.noConfusion hr
    | some r₂ =>
      obtain ⟨h₂, v₂⟩ := r₂
      simp only [h1] at hr
      cases h2 : replFields rv h₂ rest with
      | none => rw [h2] at hr; exact Option.noConfusion hr
      | some r₃ =>
        obtain ⟨h₃, rest₂⟩ := r₃
        simp only [h2] at hr
        obtain rfl := Option.some.inj hr
        obtain ⟨e₁, he₁⟩ := hrv h v (some k) (h₂, v₂) h1
        obtain ⟨e₂, he₂⟩ := ih h₂ (h₃, rest₂) h2
        have he₁h : h₂ = h ++ e₁ := he₁
        have he₂h : h₃ = h₂ ++ e₂ := he₂
        refine ⟨e₁ ++ e₂, ?_⟩
        show h₃ = _
        rw [he₂h, he₁h, List.append_assoc]

/-- Unkeyed-item analogue for the replacement pass. -/
theorem replItems_ext (rv : Heap → HVal → Option String → Option (Heap × HVal))
    (hrv : ∀ h v pn r, rv h v pn = some r → ∃ extra, r.1 = h ++ extra) :
    ∀ (its : List HVal) (h : Heap) (r : Heap × List HVal),
      replItems rv h its = some r → ∃ extra, r.1 = h ++ extra := by
  intro its
  induction its with
  | nil =>
    intro h r hr
    simp only [replItems] at hr
    obtain rfl := Option.some.inj hr
    exact ⟨[], by simp⟩
  | cons v rest ih =>
    intro h r hr
    simp only [replItems] at hr
    cases h1 : rv h v none with
    | none => rw [h1] at hr; exact Option.noConfusion hr
    | some r₂ =>
      obtain ⟨h₂, v₂⟩ := r₂
      simp only [h1] at hr
      cases h2 : replItems rv h₂ rest with
      | none => rw [h2] at hr; exact Option.noConfusion hr
      | some r₃ =>
        obtain ⟨h₃, rest₂⟩ := r₃
        simp only [h2] at hr
        obtain rfl := Option.some.inj hr
        obtain ⟨e₁, he₁⟩ := hrv h v none (h₂, v₂) h1
        obtain ⟨e₂, he₂⟩ := ih h₂ (h₃, rest₂) h2
        have he₁h : h₂ = h ++ e₁ := he₁
        have he₂h : h₃ = h₂ ++ e₂ := he₂
        refine ⟨e₁ ++ e₂, ?_⟩
        show h₃ = _
        rw [he₂h, he₁h, List.append_assoc]

end HeapFrame

namespace HeapFrame

open Py Resolve

/-- `copy.deepcopy` only appends to the heap. -/
theorem deepcopyH_ext : ∀ (fuel : Nat) (h : Heap) (v : HVal) (r : Heap × HVal),
    deepcopyH fuel h v = some r → ∃ extra, r.1 = h ++ extra := by
  intro fuel
  induction fuel with
  | zero =>
    intro h v r hr
    simp only [deepcopyH] at hr
    exact Option.noConfusion hr
  | succ fuel ih =>
    intro h v r hr
    cases v with
    | addr a =>
      simp only [deepcopyH] at hr
      cases hg : hget h a with
      | none => rw [hg] at hr; exact Option.noConfusion hr
      | some o =>
        cases o with
        | dictObj fs =>
          simp only [hg] at hr
          cases hc : copyFields (deepcopyH fuel) h fs with
          | none => rw [hc] at hr; exact Option.noConfusion hr
          | some r₂ =>
            obtain ⟨h₂, fs₂⟩ := r₂
            simp only [hc] at hr
            obtain rfl := Option.some.inj hr
            obtain ⟨e₁, he₁⟩ := copyFields_ext (deepcopyH fuel)
              (fun h v r hcall => ih h v r hcall) fs h (h₂, fs₂) hc
            have he₁h : h₂ = h ++ e₁ := he₁
            refine ⟨e₁ ++ [HObj.dictObj fs₂], ?_⟩
            show h₂ ++ [HObj.dictObj fs₂] = _
            rw [he₁h, List.append_assoc]
        | listObj its =>
          simp only [hg] at hr
          cases hc : copyItems (deepcopyH fuel) h its with
          | none => rw [hc] at hr; exact Option.noConfusion hr
          | some r₂ =>
            obtain ⟨h₂, its₂⟩ := r₂
            simp only [hc] at hr
            obtain rfl := Option.some.inj hr
            obtain ⟨e₁, he₁⟩ := copyItems_ext (deepcopyH fuel)
              (fun h v r hcall => ih h v r hcall) its h (h₂, its₂) hc
            have he₁h : h₂ = h ++ e₁ := he₁
            refine ⟨e₁ ++ [HObj.listObj its₂], ?_⟩
            show h₂ ++ [HObj.listObj its₂] = _
            rw [he₁h, List.append_assoc]
    | str s =>
      simp only [deepcopyH] at hr
      obtain rfl := Option.some.inj hr
      exact ⟨[], by simp⟩
    | intv n =>
      simp only [deepcopyH] at hr
      obtain rfl := Option.some.inj hr
      exact ⟨[], by simp⟩
    | float q =>
      simp only [deepcopyH] at hr
      obtain rfl := Option.some.inj hr
      exact ⟨[], by simp⟩
    | boolv b =>
      simp only [deepcopyH] at hr
      obtain rfl := Option.some.inj hr
      exact ⟨[], by simp⟩
    | nonev =>
      simp only [deepcopyH] at hr
      obtain rfl := Option.some.inj hr
      exact ⟨[], by simp⟩

/-- The replacement pass only appends to the heap, and what it returns is
a primitive or a freshly allocated cell. -/
theorem replaceRecH_ext (ctx : AgentCtx) (rmap : List (Nat × String)) :
    ∀ (fuel : Nat) (h : Heap) (v : HVal) (pn : Option String) (r : Heap × HVal),
    replaceRecH ctx rmap fuel h v pn = some r →
    (∃ extra, r.1 = h ++ extra) ∧ freshVal (hlen h) r.2 := by
  intro fuel
  induction fuel with
  | zero =>
    intro h v pn r hr
    simp only [replaceRecH] at hr
    exact Option.noConfusion hr
  | succ fuel ih =>
    intro h v pn r hr
    cases v with
    | str s =>
      simp only [replaceRecH] at hr
      obtain rfl := Option.some.inj hr
      exact allocPyVal_ext h (Resolve.replacePlaceholder ctx (toPureMap rmap) (PyVal.str s) pn)
    | addr a =>
      simp only [replaceRecH] at hr
      cases hg : hget h a with
      | none => rw [hg] at hr; exact Option.noConfusion hr
      | some o =>
        cases o with
        | dictObj fs =>
          simp only [hg] at hr
          cases hc : replFields (replaceRecH ctx rmap fuel) h fs with
          | none => rw [hc] at hr; exact Option.noConfusion hr
          | some r₂ =>
            obtain ⟨h₂, fs₂⟩ := r₂
            simp only [hc] at hr
            obtain rfl := Option.some.inj hr
            obtain ⟨e₁, he₁⟩ := replFields_ext (replaceRecH ctx rmap fuel)
              (fun h v pn r hcall => (ih h v pn r hcall).1) fs h (h₂, fs₂) hc
            have he₁h : h₂ = h ++ e₁ := he₁
            constructor
            · refine ⟨e₁ ++ [HObj.dictObj fs₂], ?_⟩
              show h₂ ++ [HObj.dictObj fs₂] = _
              rw [he₁h, List.append_assoc]
            · show hlen h ≤ hlen h₂
              rw [he₁h]
              simp [hlen]
        | listObj its =>
          simp only [hg] at hr
          cases hc : replItems (replaceRecH ctx rmap fuel) h its with
          | none => rw [hc] at hr; exact Option.noConfusion hr
          | some r₂ =>
            obtain ⟨h₂, its₂⟩ := r₂
            simp only [hc] at hr
            obtain rfl := Option.some.inj hr
            obtain ⟨e₁, he₁⟩ := replItems_ext (replaceRecH ctx rmap fuel)
              (fun h v pn r hcall => (ih h v pn r hcall).1) its h (h₂, its₂) hc
            have he₁h : h₂ = h ++ e₁ := he₁
            constructor
            · refine ⟨e₁ ++ [HObj.listObj its₂], ?_⟩
              show h₂ ++ [HObj.listObj its₂] = _
              rw [he₁h, List.append_assoc]
            · show hlen h ≤ hlen h₂
              rw [he₁h]
              simp [hlen]
    | intv n =>
      simp only [replaceRecH] at hr
      obtain rfl := Option.some.inj hr
      exact ⟨⟨[], by simp⟩, trivial⟩
    | float q =>
      simp only [replaceRecH] at hr
      obtain rfl := Option.some.inj hr
      exact ⟨⟨[], by simp⟩, trivial⟩
    | boolv b =>
      simp only [replaceRecH] at hr
      obtain rfl := Option.some.inj hr
      exact ⟨⟨[], by simp⟩, trivial⟩
    | nonev =>
      simp only [replaceRecH] at hr
      obtain rfl := Option.some.inj hr
      exact ⟨⟨[], by simp⟩, trivial⟩

/-- Reading fields depends only on the reader's results at the member
values. -/
theorem readFields_congr (rv₁ rv₂ : Heap → HVal → Option PyVal) (h₁ h₂ : Heap) :
    ∀ (fs : List (String × HVal)), (∀ p ∈ fs, rv₁ h₁ p.2 = rv₂ h₂ p.2) →
    readFields rv₁ h₁ fs = readFields rv₂ h₂ fs := by
  intro fs
  induction fs with
  | nil => intro _; rfl
  | cons p rest ih =>
    intro hp
    obtain ⟨k, v⟩ := p
    simp only [readFields]
    rw [hp (k, v) (by simp), ih (fun q hq => hp q (List.mem_cons_of_mem _ hq))]

/-- Item analogue of `readFields_congr`. -/
theorem readItems_congr (rv₁ rv₂ : Heap → HVal → Option PyVal) (h₁ h₂ : Heap) :
    ∀ (its : List HVal), (∀ v ∈ its, rv₁ h₁ v = rv₂ h₂ v) →
    readItems rv₁ h₁ its = readItems rv₂ h₂ its := by
  intro its
  induction its with
  | nil => intro _; rfl
  | cons v rest ih =>
    intro hp
    simp only [readItems]
    rw [hp v (by simp), ih (fun w hw => hp w (List.mem_cons_of_mem _ hw))]

/-- Appending to a closed heap changes no readback of a value addressed
into the original part. -/
theorem readValueH_extend (extra : Heap) : ∀ (fuel : Nat) (h : Heap) (v : HVal),
    closedHeap h = true → closedVal (hlen h) v = true →
    readValueH fuel (h ++ extra) v = readValueH fuel h v := by
  intro fuel
  induction fuel with
  | zero => intro h v _ _; rfl
  | succ fuel ih =>
    intro h v hch hcv
    cases v with
    | addr a =>
      have ha : a < hlen h := by simpa [closedVal] using hcv
      cases hg : hget h a with
      | none => simp only [readValueH, hget_append h extra a ha, hg]
      | some o =>
        have hom : o ∈ h := hget_mem h a o hg
        have hco : closedObj (hlen h) o = true := by
          rw [closedHeap, List.all_eq_true] at hch
          exact hch o hom
        cases o with
        | dictObj fs =>
          have hmem : ∀ p ∈ fs, closedVal (hlen h) p.2 = true := by
            rw [closedObj, List.all_eq_true] at hco
            exact hco
          simp only [readValueH, hget_append h extra a ha, hg]
          rw [readFields_congr (readValueH fuel) (readValueH fuel) (h ++ extra) h fs
            (fun p hp => ih h p.2 hch (hmem p hp))]
        | listObj its =>
          have hmem : ∀ v ∈ its, closedVal (hlen h) v = true := by
            rw [closedObj, List.all_eq_true] at hco
            exact hco
          simp only [readValueH, hget_append h extra a ha, hg]
          rw [readItems_congr (readValueH fuel) (readValueH fuel) (h ++ extra) h its
            (fun w hw => ih h w hch (hmem w hw))]
    | str s => rfl
    | intv n => rfl
    | float q => rfl
    | boolv b => rfl
    | nonev => rfl

end HeapFrame

namespace HeapFrame

open Py Resolve

/-- **C9.** Placeholder resolution never mutates its inputs: for every
agent context, results map (step-number/result-string pairs — immutable
primitives), fuel and closed heap, a successful run of
`_replace_result_placeholders` on the parameters structure at `pa` only
appends fresh cells to the heap, so every pre-existing cell — in
particular the whole parameters structure — reads back unchanged at
every depth, and the returned value is a primitive or a newly built
structure (an address allocated by the call). -/
theorem replace_result_placeholders_no_mutation
    (ctx : AgentCtx) (rmap : List (Nat × String)) (fuel : Nat)
    (h h₁ : Heap) (pa : Nat) (v : HVal)
    (hclosed : closedHeap h = true) (hpa : pa < hlen h)
    (hrun : replaceResultPlaceholdersH ctx rmap fuel h pa = some (h₁, v)) :
    (∃ extra, h₁ = h ++ extra) ∧
    (∀ a : Nat, a < hlen h → hget h₁ a = hget h a) ∧
    (∀ fuel₂ : Nat,
      readValueH fuel₂ h₁ (HVal.addr pa) = readValueH fuel₂ h (HVal.addr pa)) ∧
    freshVal (hlen h) v := by
  simp only [replaceResultPlaceholdersH] at hrun
  cases hd : deepcopyH fuel h (HVal.addr pa) with
  | none => rw [hd] at hrun; exact Option.noConfusion hrun
  | some r₂ =>
    obtain ⟨h₂, v₂⟩ := r₂
    simp only [hd] at hrun
    obtain ⟨e₁, he₁⟩ := deepcopyH_ext fuel h (HVal.addr pa) (h₂, v₂) hd
    have he₁h : h₂ = h ++ e₁ := he₁
    obtain ⟨⟨e₂, he₂⟩, hfresh⟩ := replaceRecH_ext ctx rmap fuel h₂ v₂ none (h₁, v) hrun
    have he₂h : h₁ = h₂ ++ e₂ := he₂
    have hext : h₁ = h ++ (e₁ ++ e₂) := by rw [he₂h, he₁h, List.append_assoc]
    refine ⟨⟨e₁ ++ e₂, hext⟩, ?_, ?_, ?_⟩
    · intro a ha
      rw [hext]
      exact hget_append h (e₁ ++ e₂) a ha
    · intro fuel₂
      rw [hext]
      exact readValueH_extend (e₁ ++ e₂) fuel₂ h (HVal.addr pa) hclosed
        (by simpa [closedVal] using hpa)
    · refine freshVal_mono (hlen h) (hlen h₂) ?_ v hfresh
      rw [he₁h]
      simp [hlen]

def heapW : Heap := [HObj.dictObj [("a", HVal.str "RESULT_FROM_STEP_1")]]

def rmapW : List (Nat × String) := [(1, "41")]

def heapWout : Heap :=
  [HObj.dictObj [("a", HVal.str "RESULT_FROM_STEP_1")],
   HObj.dictObj [("a", HVal.str "RESULT_FROM_STEP_1")],
   HObj.dictObj [("a", HVal.str "41")]]

theorem replace_result_placeholders_no_mutation_witness :
    closedHeap heapW = true ∧ 0 < hlen heapW ∧
    replaceResultPlaceholdersH Resolve.ctx0 rmapW 5 heapW 0 =
      some (heapWout, HVal.addr 2) ∧
    hget heapWout 0 = hget heapW 0 ∧
    readValueH 2 heapWout (HVal.addr 0) = readValueH 2 heapW (HVal.addr 0) ∧
    freshVal (hlen heapW) (HVal.addr 2) :=
  ⟨by decide, by decide, by decide,
   (replace_result_placeholders_no_mutation Resolve.ctx0 rmapW 5 heapW heapWout 0
     (HVal.addr 2) (by decide) (by decide) (by decide)).2.1 0 (by decide),
   (replace_result_placeholders_no_mutation Resolve.ctx0 rmapW 5 heapW heapWout 0
     (HVal.addr 2) (by decide) (by decide) (by decide)).2.2.1 2,
   (replace_result_placeholders_no_mutation Resolve.ctx0 rmapW 5 heapW heapWout 0
     (HVal.addr 2) (by decide) (by decide) (by decide)).2.2.2⟩

end HeapFrame
